import Mathlib

/-!
Verification of the markdown-to-Notion converter of sync-typecho-to-notion.

The definitions below are a shallow embedding of the TypeScript source:
  - `src/notion/client.ts`: `parseRichText`, `parseInlineFormat`,
    `sanitizeUrl`, `mapLanguage`, `SUPPORTED_LANGUAGES`,
    `convertContentToBlocks`, `createPage`, `replacePageContent`;
  - `src/index.ts`: the create/update/skip classification in `syncPosts`.

Text is modelled as `List Char` (JavaScript strings restricted to the
characters the program manipulates); the regex-driven scanners are
translated into deterministic matching functions that implement exactly
the leftmost-match / first-alternative semantics of the JavaScript
regular expressions used by the source, which is justified alternative by
alternative in the comments.
-/

namespace SyncTypecho

/-! ## Basic string utilities (models of the JavaScript primitives) -/

/-- The whitespace class used by JavaScript `String.prototype.trim` and the
regex class `\s`, restricted to the ASCII characters (the source only ever
meets ASCII whitespace). -/
def jsWs (c : Char) : Bool :=
  c = ' ' ∨ c = '\t' ∨ c = '\n' ∨ c = '\r' ∨ c = '\x0b' ∨ c = '\x0c'

/-- JavaScript `String.prototype.trim`: drop whitespace from both ends. -/
def jsTrim (s : List Char) : List Char :=
  ((s.dropWhile jsWs).reverse.dropWhile jsWs).reverse

/-- JavaScript `String.prototype.toLowerCase` on the ASCII range
(`Char.toLower` lower-cases exactly `A`–`Z`). -/
def toLowerL (s : List Char) : List Char :=
  s.map Char.toLower

/-! ## Code-language normalizer (`mapLanguage`, client.ts lines 695–795) -/

/-- `SUPPORTED_LANGUAGES` from client.ts lines 695–707: the fixed set of
language tags accepted by the Notion store. -/
def SUPPORTED_LANGUAGES : List String :=
  ["abap", "agda", "arduino", "ascii art", "assembly", "bash", "basic", "bnf",
   "c", "c#", "c++", "clojure", "coffeescript", "coq", "css", "dart", "dhall", "diff",
   "docker", "ebnf", "elixir", "elm", "erlang", "f#", "flow", "fortran", "gherkin",
   "glsl", "go", "graphql", "groovy", "haskell", "hcl", "html", "idris", "java",
   "javascript", "json", "julia", "kotlin", "latex", "less", "lisp", "livescript",
   "llvm ir", "lua", "makefile", "markdown", "markup", "matlab", "mathematica", "mermaid",
   "nix", "notion formula", "objective-c", "ocaml", "pascal", "perl", "php", "plain text",
   "powershell", "prolog", "protobuf", "purescript", "python", "r", "racket", "reason",
   "ruby", "rust", "sass", "scala", "scheme", "scss", "shell", "smalltalk", "solidity",
   "sql", "swift", "toml", "typescript", "vb.net", "verilog", "vhdl", "visual basic",
   "webassembly", "xml", "yaml", "java/c/c++/c#"]

/-- The alias table `languageMap` from client.ts lines 711–783, in source
order. -/
def languageMap : List (String × String) :=
  [("js", "javascript"), ("ts", "typescript"), ("py", "python"), ("rb", "ruby"),
   ("sh", "bash"), ("zsh", "bash"), ("fish", "bash"), ("yml", "yaml"),
   ("dockerfile", "docker"), ("md", "markdown"),
   ("ini", "toml"), ("conf", "toml"), ("cfg", "toml"), ("properties", "toml"),
   ("env", "shell"), ("dotenv", "shell"), ("vim", "plain text"), ("viml", "plain text"),
   ("vimscript", "plain text"), ("reg", "plain text"), ("nginx", "plain text"),
   ("apache", "plain text"), ("htaccess", "plain text"), ("http", "plain text"),
   ("console", "shell"), ("terminal", "shell"), ("text", "plain text"),
   ("txt", "plain text"), ("log", "plain text"), ("asm", "assembly"),
   ("nasm", "assembly"), ("terraform", "hcl"), ("tf", "hcl"), ("jsonc", "json"),
   ("json5", "json"), ("jsx", "javascript"), ("tsx", "typescript"),
   ("cjs", "javascript"), ("mjs", "javascript"), ("mts", "typescript"),
   ("cts", "typescript"), ("vue", "html"), ("svelte", "html"), ("astro", "html"),
   ("objc", "objective-c"), ("objectivec", "objective-c"), ("cs", "c#"),
   ("csharp", "c#"), ("cpp", "c++"), ("cc", "c++"), ("cxx", "c++"), ("h", "c"),
   ("hpp", "c++"), ("rs", "rust"), ("kt", "kotlin"), ("kts", "kotlin"),
   ("ex", "elixir"), ("exs", "elixir"), ("erl", "erlang"), ("hs", "haskell"),
   ("ml", "ocaml"), ("fs", "f#"), ("fsharp", "f#"), ("pl", "perl"), ("pm", "perl"),
   ("psm1", "powershell"), ("ps1", "powershell"), ("bat", "powershell"),
   ("cmd", "powershell")]

/-- Own-entry association-list lookup: the part of `languageMap[normalized]`
that consults the object literal's own properties.  The inherited
`Object.prototype` properties the bracket read can also hit are handled in
`jsIndex` below. -/
def assocLookup (k : String) : List (String × String) → Option String
  | [] => none
  | (a, v) :: rest => if a = k then some v else assocLookup k rest

/-- List membership test mirroring `SUPPORTED_LANGUAGES.has(normalized)`
(`has` on a `Set` involves no prototype chain). -/
def memString (k : String) : List String → Bool
  | [] => false
  | a :: rest => if a = k then true else memString k rest

/-- A JavaScript value as the bracket read `languageMap[normalized]` can
produce it: a string from the table, or one of the two truthy non-string
values the plain object literal inherits from `Object.prototype` —
`languageMap["constructor"]` is the function
`Object.prototype.constructor`, and `languageMap["__proto__"]` triggers the
inherited accessor and yields the literal's prototype, `Object.prototype`
itself. -/
inductive JsVal where
  | str (s : String)
  | protoCtor
  | protoObj
deriving DecidableEq, Repr

/-- Discriminator: is the value a string? -/
def JsVal.isStr : JsVal → Bool
  | JsVal.str _ => true
  | _ => false

/-- JavaScript truthiness of such a value: the empty string is falsy,
functions and objects are truthy. -/
def truthyVal : JsVal → Bool
  | JsVal.str s => !(s == "")
  | JsVal.protoCtor => true
  | JsVal.protoObj => true

/-- `lang.toLowerCase().trim()` from client.ts line 784. -/
def normalizeTag (lang : String) : String :=
  ⟨jsTrim (toLowerL lang.data)⟩

/-- The full JavaScript property read `languageMap[normalized]`: an own
entry if present, otherwise the `Object.prototype` members reachable under
lower-cased keys.  Of those members only `constructor` and `__proto__` are
entirely lower-case (every other name — `toString`, `valueOf`,
`hasOwnProperty`, `__defineGetter__`, … — contains an upper-case letter, so
no `toLowerCase`d tag can name it), and neither is shadowed by an own key
of the literal. -/
def jsIndex (k : String) : Option JsVal :=
  match assocLookup k languageMap with
  | some v => some (JsVal.str v)
  | none =>
    if k = "constructor" then some JsVal.protoCtor
    else if k = "__proto__" then some JsVal.protoObj
    else none

/-- `mapLanguage` from client.ts lines 710–795: lower-case and trim the
tag; if the bracket read `languageMap[normalized]` yields a truthy value —
an own table entry or an inherited `Object.prototype` member — return that
value as-is, else fall back to the supported set, defaulting to
`"plain text"`. -/
def mapLanguage (lang : String) : JsVal :=
  let normalized : String := normalizeTag lang
  match jsIndex normalized with
  | some v =>
    if truthyVal v then v
    else if memString normalized SUPPORTED_LANGUAGES then JsVal.str normalized
    else JsVal.str "plain text"
  | none =>
    if memString normalized SUPPORTED_LANGUAGES then JsVal.str normalized
    else JsVal.str "plain text"

/-- Re-applying `mapLanguage` to the value it returned (as the idempotence
composition does): on a string the call proceeds, but on either inherited
non-string value `lang.toLowerCase()` raises a `TypeError`, modelled as
`none`. -/
def mapLanguageVal : JsVal → Option JsVal
  | JsVal.str s => some (mapLanguage s)
  | JsVal.protoCtor => none
  | JsVal.protoObj => none

/-- One global literal-pattern replacement step, fuel-driven so that it is
structural recursion (the fuel starts at the string length and can never run
out because every step consumes at least one character). Mirrors JavaScript
`String.prototype.replace` with a `g`-flag literal pattern: scan left to
right, replace each non-overlapping occurrence, resume after it. -/
def replaceAllAux (pat rep : List Char) : Nat → List Char → List Char
  | _, [] => []
  | 0, s => s
  | fuel + 1, c :: rest =>
    if pat ≠ [] ∧ pat.isPrefixOf (c :: rest) then
      rep ++ replaceAllAux pat rep fuel ((c :: rest).drop pat.length)
    else
      c :: replaceAllAux pat rep fuel rest

/-- JavaScript `s.replace(/pat/g, rep)` for a literal pattern `pat`. -/
def replaceAll (pat rep s : List Char) : List Char :=
  replaceAllAux pat rep s.length s

/-- The apostrophe character, `&#39;`'s decoding. -/
def apostropheChar : Char := Char.ofNat 39

/-- The five entity decodings of `sanitizeUrl` (client.ts lines 249–255), in
source order. -/
def decodeEntities (s : List Char) : List Char :=
  replaceAll "&#39;".data [apostropheChar]
    (replaceAll "&quot;".data "\"".data
      (replaceAll "&gt;".data ">".data
        (replaceAll "&lt;".data "<".data
          (replaceAll "&amp;".data "&".data s))))

/-! ## URL sanitizer (`sanitizeUrl`, client.ts lines 243–280) -/

def isAsciiLetter (c : Char) : Bool :=
  ('a' ≤ c ∧ c ≤ 'z') ∨ ('A' ≤ c ∧ c ≤ 'Z')

def isAsciiDigit (c : Char) : Bool :=
  '0' ≤ c ∧ c ≤ '9'

/-- The character class `[a-zA-Z0-9+.-]` of the scheme regex. -/
def schemeChar (c : Char) : Bool :=
  isAsciiLetter c ∨ isAsciiDigit c ∨ c = '+' ∨ c = '.' ∨ c = '-'

/-- Test of the regex `^[a-zA-Z][a-zA-Z0-9+.-]*:` (client.ts line 265).
`:` is not in the starred class, so the backtracking search succeeds exactly
when the maximal class run is followed by `:`. -/
def schemeTest (s : List Char) : Bool :=
  match s with
  | [] => false
  | c :: rest => isAsciiLetter c && ((rest.dropWhile schemeChar).head? == some ':')

/-- The character class `[a-zA-Z0-9-]` of the bare-domain regex. -/
def domainChar (c : Char) : Bool :=
  isAsciiLetter c ∨ isAsciiDigit c ∨ c = '-'

/-- Test of the regex `^[a-zA-Z0-9][a-zA-Z0-9-]*\.[a-zA-Z]\x7b2,\x7d`
(client.ts line 267): alphanumeric first character, a run of the domain
class, a dot, then at least two letters. `.` is not in the starred class, so
the deterministic scan matches the regex's backtracking search. -/
def domainTest (s : List Char) : Bool :=
  match s with
  | [] => false
  | c :: rest =>
    (isAsciiLetter c || isAsciiDigit c) &&
    (match rest.dropWhile domainChar with
     | '.' :: a :: b :: _ => isAsciiLetter a && isAsciiLetter b
     | _ => false)

/-- Schemes the WHATWG URL standard treats as special (other than `file`). -/
def specialSchemes : List (List Char) :=
  ["http".data, "https".data, "ws".data, "wss".data, "ftp".data]

/-- Code points forbidden in the host of a special-scheme URL. -/
def forbiddenHostChar (c : Char) : Bool :=
  c = ' ' ∨ c = '#' ∨ c = '/' ∨ c = ':' ∨ c = '<' ∨ c = '>' ∨ c = '?' ∨
  c = '@' ∨ c = '[' ∨ c = '\\' ∨ c = ']' ∨ c = '^' ∨ c = '|' ∨ c = '%' ∨
  c = '\t' ∨ c = '\n' ∨ c = '\r'

/-- The part of an authority after its last `@` (the host and port; the part
before is userinfo). -/
def afterAt (l : List Char) : List Char :=
  if l.contains '@' then (l.reverse.takeWhile (fun c => c ≠ '@')).reverse else l

/-- Host validation for a special-scheme URL: after the scheme, skip the
authority slashes, take the authority up to the first path/query/fragment
delimiter, strip userinfo, and require a non-empty host of allowed
characters with an all-digit port. -/
def hostOk (after : List Char) : Bool :=
  let afterSlashes := after.dropWhile (fun c => c = '/' ∨ c = '\\')
  let authority := afterSlashes.takeWhile (fun c => ¬ (c = '/' ∨ c = '?' ∨ c = '#' ∨ c = '\\'))
  let hostport := afterAt authority
  let host := hostport.takeWhile (fun c => c ≠ ':')
  let port := (hostport.dropWhile (fun c => c ≠ ':')).drop 1
  host ≠ [] ∧ host.all (fun c => ¬ forbiddenHostChar c) ∧ port.all isAsciiDigit

/-- Modelled from the spec: §4.3's final validation step `new URL(sanitized)`
(the platform's WHATWG URL constructor, which is not part of this
repository's sources). The model captures the constructor's success
predicate on strings that carry a scheme: a URL with a special scheme
(`http`, `https`, `ws`, `wss`, `ftp`) must have a valid non-empty host,
`file` and non-special schemes always parse (their remainder is an opaque
path). -/
def urlParseOk (s : List Char) : Bool :=
  match s with
  | [] => false
  | c :: rest =>
    if isAsciiLetter c then
      match rest.dropWhile schemeChar with
      | ':' :: after =>
        let scheme := toLowerL (c :: rest.takeWhile schemeChar)
        if scheme = "file".data then true
        else if specialSchemes.contains scheme then hostOk after
        else true
      | _ => false
    else false

/-- The literal prefix prepended to bare domains. -/
def httpsPrefix : List Char := "https://".data

/-- The post-decode part of `sanitizeUrl` (client.ts lines 258–279), applied
to the already decoded-and-trimmed string: reject empty strings, anchors and
relative paths; keep a string with a scheme if the URL parser accepts it;
prepend `https://` to a bare domain; reject everything else. -/
def sanitizePipeline (t : List Char) : Option (List Char) :=
  if t = [] ∨ t.head? = some '#' ∨ t.head? = some '/' then none
  else if schemeTest t then
    if urlParseOk t then some t else none
  else if domainTest t then
    if urlParseOk (httpsPrefix ++ t) then some (httpsPrefix ++ t) else none
  else none

/-- `sanitizeUrl` from client.ts lines 243–280: reject blank input, decode
the five HTML entities and trim, then run the validation pipeline. -/
def sanitizeUrl (url : List Char) : Option (List Char) :=
  if url = [] ∨ jsTrim url = [] then none
  else sanitizePipeline (jsTrim (decodeEntities url))

/-! ## Inline matchers

Each matcher implements one alternative of the combined regular
expressions of `parseRichText` (client.ts line 298) and
`parseInlineFormat` (client.ts line 465), at one starting position.
Every alternative is deterministic: each starred/`+` class excludes the
character that must follow it, so the greedy scan equals the regex's
backtracking search, and the lazy `(.+?)` bodies are found by shortest
extension.  A matcher returns the captured group(s) and the rest of the
input after the match. -/

/-- Shortest non-empty inner text (of non-newline characters) followed by
the two-character closing delimiter `c1 c2` — the `(.+?)` body of
`\*\*(.+?)\*\*`, `__(.+?)__` and `~~(.+?)~~`.  `acc` holds the consumed
inner text in reverse. -/
def lazyInner (c1 c2 : Char) (acc : List Char) : List Char → Option (List Char × List Char)
  | [] => none
  | a :: rest =>
    if acc ≠ [] ∧ a = c1 ∧ rest.head? = some c2 then
      some (acc.reverse, rest.tail)
    else if a = '\n' then none
    else lazyInner c1 c2 (a :: acc) rest

/-- A two-character delimited span: `cc(.+?)cc` for `c` one of `*`, `_`,
`~`. -/
def mDouble (c : Char) (s : List Char) : Option (List Char × List Char) :=
  match s with
  | a :: b :: rest => if a = c ∧ b = c then lazyInner c c [] rest else none
  | _ => none

/-- The inline-code alternative ``(`([^`]+)`)``. -/
def mCode (s : List Char) : Option (List Char × List Char) :=
  match s with
  | '`' :: rest =>
    match rest.takeWhile (fun c => c ≠ '`') with
    | [] => none
    | i :: is =>
      match rest.drop (i :: is).length with
      | '`' :: after => some (i :: is, after)
      | _ => none
  | _ => none

/-- The star-italic alternative `(?<!\*)\*([^*]+)\*(?!\*)`: the preceding
character (in the whole text) must not be `*`, and the character after the
closing `*` must not be `*`. -/
def mStar (prev : Option Char) (s : List Char) : Option (List Char × List Char) :=
  match s with
  | '*' :: rest =>
    if prev = some '*' then none
    else
      match rest.takeWhile (fun c => c ≠ '*') with
      | [] => none
      | i :: is =>
        match rest.drop (i :: is).length with
        | '*' :: after =>
          if after.head? = some '*' then none else some (i :: is, after)
        | _ => none
  | _ => none

/-- The word-character class `\w` of JavaScript regexes. -/
def isWordChar (c : Char) : Bool :=
  isAsciiLetter c ∨ isAsciiDigit c ∨ c = '_'

/-- The underscore-italic alternative `\b_([^_]+)_\b`: `_` is a word
character, so the boundary before it requires a non-word (or absent)
preceding character and the boundary after the closing `_` requires a
non-word (or absent) following character. -/
def mUnder (prev : Option Char) (s : List Char) : Option (List Char × List Char) :=
  match s with
  | '_' :: rest =>
    if (match prev with | some p => isWordChar p | none => false) then none
    else
      match rest.takeWhile (fun c => c ≠ '_') with
      | [] => none
      | i :: is =>
        match rest.drop (i :: is).length with
        | '_' :: after =>
          if (match after.head? with | some a => isWordChar a | none => false) then none
          else some (i :: is, after)
        | _ => none
  | _ => none

/-- The link alternative `\[([^\]]*)\]\(([^)\s]+)(?:\s+"[^"]*")?\)`:
bracketed label (which may be empty), parenthesized whitespace-free target,
optional quoted title. -/
def mLink (s : List Char) : Option ((List Char × List Char) × List Char) :=
  match s with
  | '[' :: rest =>
    let label := rest.takeWhile (fun c => c ≠ ']')
    match rest.drop label.length with
    | ']' :: '(' :: rest2 =>
      match rest2.takeWhile (fun c => ¬ (c = ')' ∨ jsWs c)) with
      | [] => none
      | u :: us =>
        match rest2.drop (u :: us).length with
        | ')' :: after => some ((label, u :: us), after)
        | w :: ws =>
          if jsWs w then
            match (w :: ws).dropWhile jsWs with
            | '"' :: r4 =>
              let title := r4.takeWhile (fun c => c ≠ '"')
              match r4.drop title.length with
              | '"' :: ')' :: after => some ((label, u :: us), after)
              | _ => none
            | _ => none
          else none
        | [] => none
    | _ => none
  | _ => none

/-- The body of an autolink after a known scheme prefix. -/
def mAutoWith (pre rest : List Char) : Option (List Char × List Char) :=
  let rest1 := rest.drop pre.length
  match rest1.takeWhile (fun c => c ≠ '>') with
  | [] => none
  | b :: bs =>
    match rest1.drop (b :: bs).length with
    | '>' :: after => some (pre ++ (b :: bs), after)
    | _ => none

/-- The autolink alternative `<(https?:\/\/[^>]+)>` (the two scheme
branches are mutually exclusive). -/
def mAuto (s : List Char) : Option (List Char × List Char) :=
  match s with
  | '<' :: rest =>
    if "https://".data.isPrefixOf rest then mAutoWith "https://".data rest
    else if "http://".data.isPrefixOf rest then mAutoWith "http://".data rest
    else none
  | _ => none

/-! ## The data model: text runs and blocks -/

/-- One Notion rich-text item as built by `createRichTextItem` (client.ts
lines 203–240): content, the four annotation flags (an absent `annotations`
object is represented by all-false flags, which is how the store interprets
it), and an optional link target. -/
structure Run where
  content : List Char
  bold : Bool := false
  italic : Bool := false
  strikethrough : Bool := false
  code : Bool := false
  linkUrl : Option (List Char) := none
deriving DecidableEq, Repr

/-- An intermediate item of `parseInlineFormat` (client.ts lines 446–513):
content plus the four style flags. -/
structure IItem where
  content : List Char
  bold : Bool := false
  italic : Bool := false
  strikethrough : Bool := false
  code : Bool := false
deriving DecidableEq, Repr

/-- The style flags inherited by a recursive `parseInlineFormat` call. -/
structure Flags where
  bold : Bool := false
  italic : Bool := false
  strikethrough : Bool := false
  code : Bool := false
deriving DecidableEq, Repr

/-- One Notion block as built by `convertContentToBlocks` (client.ts lines
516–692). -/
inductive Block where
  | code (language : JsVal) (text : List Char)
  | heading1 (runs : List Run)
  | heading2 (runs : List Run)
  | heading3 (runs : List Run)
  | quote (runs : List Run)
  | bullet (runs : List Run)
  | numbered (runs : List Run)
  | divider
  | image (url : List Char) (caption : List (List Char))
  | para (runs : List Run)
deriving DecidableEq, Repr

/-- The inline-parsed text runs of a block (code text, image captions and
dividers carry no parsed runs). -/
def runsOf : Block → List Run
  | Block.heading1 rs => rs
  | Block.heading2 rs => rs
  | Block.heading3 rs => rs
  | Block.quote rs => rs
  | Block.bullet rs => rs
  | Block.numbered rs => rs
  | Block.para rs => rs
  | _ => []

/-! ## The inline scanners (`parseInlineFormat`, client.ts lines 446–513,
and `parseRichText`, client.ts lines 283–443)

Both scanners walk the text left to right exactly as the JavaScript
`while ((match = regex.exec(text)) […])` loops do: at each position the
alternatives are tried in the regex's order; on a match the pending plain
text is flushed, the branch's items are emitted and scanning resumes after
the match; otherwise the character joins the pending plain text.  The fuel
argument (initialized to the text length, which every step decreases by at
least one consumed character) makes the recursion structural. -/

/-- One match of the restricted inline regex of `parseInlineFormat`
(client.ts line 465; no link or autolink alternatives). -/
inductive ITok where
  | code (t : List Char)
  | bold (t : List Char)
  | ital (t : List Char)
  | strike (t : List Char)
deriving DecidableEq, Repr

/-- Try the alternatives of the inline regex in order at one position,
returning the token, the last character of the matched text (needed as the
following position's lookbehind context), and the rest after the match. -/
def tryITok (prev : Option Char) (s : List Char) : Option (ITok × Char × List Char) :=
  match mCode s with
  | some (t, rest) => some (ITok.code t, '`', rest)
  | none =>
    match mDouble '*' s with
    | some (t, rest) => some (ITok.bold t, '*', rest)
    | none =>
      match mDouble '_' s with
      | some (t, rest) => some (ITok.bold t, '_', rest)
      | none =>
        match mStar prev s with
        | some (t, rest) => some (ITok.ital t, '*', rest)
        | none =>
          match mUnder prev s with
          | some (t, rest) => some (ITok.ital t, '_', rest)
          | none =>
            match mDouble '~' s with
            | some (t, rest) => some (ITok.strike t, '~', rest)
            | none => none

/-- Flush pending plain text as one item carrying the inherited flags
(`if (plainText) result.push(\x7b content: plainText, ...inherited \x7d)`). -/
def flushInline (inh : Flags) (pending : List Char) : List IItem :=
  if pending = [] then []
  else [{ content := pending, bold := inh.bold, italic := inh.italic,
          strikethrough := inh.strikethrough, code := inh.code }]

/-- The items one inline token contributes (client.ts lines 478–496): the
inherited flags spread, with the token's own flag forced on. -/
def tokItems (inh : Flags) : ITok → List IItem
  | ITok.code t =>
    [{ content := t, bold := inh.bold, italic := inh.italic,
       strikethrough := inh.strikethrough, code := true }]
  | ITok.bold t =>
    [{ content := t, bold := true, italic := inh.italic,
       strikethrough := inh.strikethrough, code := inh.code }]
  | ITok.ital t =>
    [{ content := t, bold := inh.bold, italic := true,
       strikethrough := inh.strikethrough, code := inh.code }]
  | ITok.strike t =>
    [{ content := t, bold := inh.bold, italic := inh.italic,
       strikethrough := true, code := inh.code }]

/-- The scan loop of `parseInlineFormat`. -/
def scanInline (inh : Flags) : Nat → Option Char → List Char → List Char → List IItem
  | _, _, pending, [] => flushInline inh pending
  | 0, _, pending, s => flushInline inh (pending ++ s)
  | fuel + 1, prev, pending, c :: rest =>
    match tryITok prev (c :: rest) with
    | some (tok, lastc, after) =>
      flushInline inh pending ++ tokItems inh tok ++
        scanInline inh fuel (some lastc) [] after
    | none => scanInline inh fuel (some c) (pending ++ [c]) rest

/-- `parseInlineFormat` (client.ts lines 446–513). -/
def parseInlineFormat (inh : Flags) (text : List Char) : List IItem :=
  let r := scanInline inh text.length none [] text
  if r = [] then
    [{ content := text, bold := inh.bold, italic := inh.italic,
       strikethrough := inh.strikethrough, code := inh.code }]
  else r

/-- One match of the combined rich-text regex of `parseRichText`
(client.ts line 298). -/
inductive RTok where
  | code (t : List Char)
  | link (label url : List Char)
  | auto (u : List Char)
  | bold (t : List Char)
  | ital (t : List Char)
  | strike (t : List Char)
deriving DecidableEq, Repr

/-- Try the alternatives of the rich-text regex in order at one position. -/
def tryRTok (prev : Option Char) (s : List Char) : Option (RTok × Char × List Char) :=
  match mCode s with
  | some (t, rest) => some (RTok.code t, '`', rest)
  | none =>
    match mLink s with
    | some ((label, url), rest) => some (RTok.link label url, ')', rest)
    | none =>
      match mAuto s with
      | some (u, rest) => some (RTok.auto u, '>', rest)
      | none =>
        match mDouble '*' s with
        | some (t, rest) => some (RTok.bold t, '*', rest)
        | none =>
          match mDouble '_' s with
          | some (t, rest) => some (RTok.bold t, '_', rest)
          | none =>
            match mStar prev s with
            | some (t, rest) => some (RTok.ital t, '*', rest)
            | none =>
              match mUnder prev s with
              | some (t, rest) => some (RTok.ital t, '_', rest)
              | none =>
                match mDouble '~' s with
                | some (t, rest) => some (RTok.strike t, '~', rest)
                | none => none

/-- The runs one rich-text token contributes (client.ts lines 313–424). -/
def rtokRuns : RTok → List Run
  | RTok.code t => [{ content := t, code := true }]
  | RTok.link label url =>
    let linkText := if label = [] then url else label
    let parsed := parseInlineFormat {} linkText
    match sanitizeUrl url with
    | some su =>
      parsed.map (fun it =>
        { content := it.content, bold := it.bold, italic := it.italic,
          strikethrough := it.strikethrough, code := it.code, linkUrl := some su })
    | none =>
      parsed.map (fun it =>
        { content := it.content, bold := it.bold, italic := it.italic,
          strikethrough := it.strikethrough, code := it.code })
  | RTok.auto u =>
    match sanitizeUrl u with
    | some su => [{ content := u, linkUrl := some su }]
    | none => [{ content := u }]
  | RTok.bold t =>
    (parseInlineFormat { bold := true } t).map (fun it =>
      { content := it.content, bold := true, italic := it.italic,
        strikethrough := it.strikethrough, code := it.code })
  | RTok.ital t =>
    (parseInlineFormat { italic := true } t).map (fun it =>
      { content := it.content, bold := it.bold, italic := true,
        strikethrough := it.strikethrough, code := it.code })
  | RTok.strike t =>
    (parseInlineFormat { strikethrough := true } t).map (fun it =>
      { content := it.content, bold := it.bold, italic := it.italic,
        strikethrough := true, code := it.code })

/-- Flush pending plain text as one unstyled run. -/
def flushRich (pending : List Char) : List Run :=
  if pending = [] then [] else [{ content := pending }]

/-- The scan loop of `parseRichText`. -/
def scanRich : Nat → Option Char → List Char → List Char → List Run
  | _, _, pending, [] => flushRich pending
  | 0, _, pending, s => flushRich (pending ++ s)
  | fuel + 1, prev, pending, c :: rest =>
    match tryRTok prev (c :: rest) with
    | some (tok, lastc, after) =>
      flushRich pending ++ rtokRuns tok ++ scanRich fuel (some lastc) [] after
    | none => scanRich fuel (some c) (pending ++ [c]) rest

/-- `parseRichText` (client.ts lines 283–443). -/
def parseRichText (text : List Char) : List Run :=
  let r := scanRich text.length none [] text
  if r = [] then [{ content := text }] else r

/-! ## The block tokenizer (`convertContentToBlocks`, client.ts lines
516–692) -/

/-- JavaScript `content.split('\n')` (a trailing separator yields a final
empty field, and the empty string yields one empty field). -/
def splitNl : List Char → List (List Char)
  | [] => [[]]
  | c :: r =>
    if c = '\n' then [] :: splitNl r
    else
      match splitNl r with
      | h :: t => (c :: h) :: t
      | [] => [[c]]

/-- `line.startsWith('…')` for the code-fence marker. -/
def isFence (l : List Char) : Bool :=
  "```".data.isPrefixOf l

/-- The match `line.match(/^\d+\.\s/)`: one or more digits, a dot, one
whitespace character; returns the length of the matched prefix. -/
def orderedMatch (line : List Char) : Option Nat :=
  match line.takeWhile isAsciiDigit with
  | [] => none
  | d :: ds =>
    match line.drop (d :: ds).length with
    | '.' :: w :: _ => if jsWs w then some ((d :: ds).length + 2) else none
    | _ => none

/-- The anchored image match
`^!\[([^\]]*)\]\(([^)\s]+)(?:\s+"[^"]*")?\)$` applied to the trimmed
line: the link pattern preceded by `!` and consuming the whole string.
Returns alt text and URL. -/
def imageMatch (t : List Char) : Option (List Char × List Char) :=
  match t with
  | '!' :: rest =>
    match mLink rest with
    | some ((alt, url), after) => if after = [] then some (alt, url) else none
    | none => none
  | _ => none

/-- `codeLines.join('\n')`. -/
def intercalateNl : List (List Char) → List Char
  | [] => []
  | [l] => l
  | l :: ls => l ++ '\n' :: intercalateNl ls

/-- The classification of one non-fence line by the branch chain of the
`convertContentToBlocks` loop (client.ts lines 544–688), in source order:
headings six hashes down to one, quote, unordered item, ordered item,
divider, standalone image, paragraph; a line that trims to nothing yields
no block. -/
def lineBlock (line : List Char) : Option Block :=
  if "###### ".data.isPrefixOf line then
    some (Block.heading3 (parseRichText (line.drop 7)))
  else if "##### ".data.isPrefixOf line then
    some (Block.heading3 (parseRichText (line.drop 6)))
  else if "#### ".data.isPrefixOf line then
    some (Block.heading3 (parseRichText (line.drop 5)))
  else if "### ".data.isPrefixOf line then
    some (Block.heading3 (parseRichText (line.drop 4)))
  else if "## ".data.isPrefixOf line then
    some (Block.heading2 (parseRichText (line.drop 3)))
  else if "# ".data.isPrefixOf line then
    some (Block.heading1 (parseRichText (line.drop 2)))
  else if "> ".data.isPrefixOf line then
    some (Block.quote (parseRichText (line.drop 2)))
  else if "- ".data.isPrefixOf line ∨ "* ".data.isPrefixOf line then
    some (Block.bullet (parseRichText (line.drop 2)))
  else
    match orderedMatch line with
    | some len => some (Block.numbered (parseRichText (line.drop len)))
    | none =>
      if line = "---".data ∨ line = "***".data ∨ line = "___".data then
        some Block.divider
      else
        match imageMatch (jsTrim line) with
        | some (alt, url) => some (Block.image url (if alt ≠ [] then [alt] else []))
        | none =>
          if jsTrim line ≠ [] then
            some (Block.para (parseRichText (line.take 2000)))
          else none

/-- The code block built when a fence line opens at the head of `rest`'s
predecessor: language tag from the fence line, verbatim captured lines
joined by newlines and capped at 2000 characters. -/
def fenceBlock (line : List Char) (codeLines : List (List Char)) : Block :=
  let langTag := jsTrim (line.drop 3)
  let language : String := ⟨if langTag = [] then "plain text".data else langTag⟩
  Block.code (mapLanguage language) ((intercalateNl codeLines).take 2000)

/-- The line loop of `convertContentToBlocks`, fuel-driven over the line
list (the fuel starts at the number of lines; every iteration consumes at
least one line): a fence line captures the following lines up to the
closing fence into one code block and skips the closing fence; any other
line contributes its `lineBlock`, if any. -/
def tokLines : Nat → List (List Char) → List Block
  | _, [] => []
  | 0, _ => []
  | fuel + 1, line :: rest =>
    if isFence line then
      fenceBlock line (rest.takeWhile (fun l => ¬ isFence l)) ::
        tokLines fuel
          ((rest.drop (rest.takeWhile (fun l => ¬ isFence l)).length).drop 1)
    else
      match lineBlock line with
      | some b => b :: tokLines fuel rest
      | none => tokLines fuel rest

/-- `convertContentToBlocks` (client.ts lines 516–692). -/
def convertContentToBlocks (content : String) : List Block :=
  tokLines (splitNl content.data).length (splitNl content.data)


/-- A line is blank exactly when it trims to nothing
(`if (line.trim())` fails). -/
def isBlank (l : List Char) : Bool :=
  jsTrim l = []

/-- From the spec's words (§8, claim C2), the promised block count: the
number of non-blank, non-continuation source lines, a fenced code region
(its opening fence, captured lines and closing fence) counting as exactly
one, blank lines counting zero. -/
def specCountAux : Nat → List (List Char) → Nat
  | _, [] => 0
  | 0, _ => 0
  | fuel + 1, l :: ls =>
    if isFence l then
      1 + specCountAux fuel ((ls.dropWhile (fun x => ¬ isFence x)).drop 1)
    else if isBlank l then specCountAux fuel ls
    else 1 + specCountAux fuel ls

/-- The spec-side count over a line list. -/
def specCount (ls : List (List Char)) : Nat :=
  specCountAux ls.length ls

/-! ## Pagination & replacement protocol (client.ts lines 130–156, 798–833)

The remote document-store collaborator is external to the repository; its
primitives and state are modelled from the spec (§6): `create` attaches
initial children, `append` adds children at the end, `delete` removes the
child with the given identifier, and the cursor-paginated listing serves the
existing children in consecutive pages of at most 100. -/

/-- One remote write/delete call, recorded with its payload. -/
inductive RemoteCall (β : Type) where
  | create (children : List β)
  | append (children : List β)
  | delete (id : Nat)
deriving DecidableEq, Repr

/-- An item of a remote page's child list: either one of the pre-existing
blocks (identified by id) or a newly written block. -/
inductive RemoteItem (β : Type) where
  | old (id : Nat)
  | new (b : β)
deriving DecidableEq, Repr

/-- Split a list into consecutive chunks of `n` (fuel-driven structural
recursion; the fuel starts at the list length, which always suffices for
`n ≥ 1`). Mirrors the `for (let i = …; i < length; i += 100)` slicing
loops of `createPage` and `replacePageContent`. -/
def chunksAux {β : Type} (n : Nat) : Nat → List β → List (List β)
  | _, [] => []
  | 0, bs => [bs]
  | fuel + 1, bs => bs.take n :: chunksAux n fuel (bs.drop n)

/-- All consecutive `n`-chunks of a list. -/
def chunks {β : Type} (n : Nat) (bs : List β) : List (List β) :=
  chunksAux n bs.length bs

/-- `createPage` (client.ts lines 130–156): attach the first 100 blocks to
the creation call; if more than 100 blocks exist, append the remainder in
further calls of up to 100 each, in order. -/
def createPageCalls {β : Type} (children : List β) : List (RemoteCall β) :=
  RemoteCall.create (children.take 100) ::
    (if children.length > 100
     then (chunks 100 (children.drop 100)).map RemoteCall.append
     else [])

/-- The delete loop of `replacePageContent` (client.ts lines 800–819): walk
the cursor-paginated listing (page size 100) and delete each listed block
individually, until the listing reports no further page.  Fuel-driven
structural recursion; one fuel unit per page always suffices. -/
def deleteWalkAux (β : Type) : Nat → List Nat → List (RemoteCall β)
  | 0, rest => (rest.take 100).map RemoteCall.delete
  | fuel + 1, rest =>
    (rest.take 100).map RemoteCall.delete ++
      (if rest.length > 100 then deleteWalkAux β fuel (rest.drop 100) else [])

/-- The calls issued by the delete loop over the existing children. -/
def deleteWalk (β : Type) (existing : List Nat) : List (RemoteCall β) :=
  deleteWalkAux β existing.length existing

/-- `replacePageContent` (client.ts lines 798–833) parameterized by the new
Document's blocks: delete every existing child, then append the new blocks
in chunks of at most 100 (the append loop only runs when there is at least
one new block). -/
def replacePageCalls {β : Type} (existing : List Nat) (newBlocks : List β) :
    List (RemoteCall β) :=
  deleteWalk β existing ++
    (if newBlocks.length > 0
     then (chunks 100 newBlocks).map RemoteCall.append
     else [])

/-- Modelled from the spec: effect of one remote call on a page's child
list (§6).  `create`/`append` add their payload at the end in order;
`delete` removes the identified pre-existing child. -/
def applyCall {β : Type} (st : List (RemoteItem β)) : RemoteCall β → List (RemoteItem β)
  | RemoteCall.create bs => st ++ bs.map RemoteItem.new
  | RemoteCall.append bs => st ++ bs.map RemoteItem.new
  | RemoteCall.delete id =>
    st.filter (fun it => match it with
      | RemoteItem.old i => !(i == id)
      | RemoteItem.new _ => true)

/-- Replay a call sequence against a remote child list. -/
def applyCalls {β : Type} (calls : List (RemoteCall β)) (st : List (RemoteItem β)) :
    List (RemoteItem β) :=
  calls.foldl applyCall st

/-- `replacePageContent` (client.ts lines 798–833) at the content level:
the call trace of replacing a page's children with the conversion of the
new source text. -/
def replacePageContentCalls (existing : List Nat) (content : String) :
    List (RemoteCall Block) :=
  replacePageCalls existing (convertContentToBlocks content)

/-! ## Sync classification (`syncPosts`, index.ts lines 121–151) and the
ISO-8601 timestamp conversion (`new Date(modified * 1000).toISOString()`) -/

/-- The action the per-post loop of `syncPosts` selects. -/
inductive SyncAction where
  | create
  | update
  | skip
deriving DecidableEq, Repr

/-- JavaScript string `<` (lexicographic by code unit). -/
def strLtB : List Char → List Char → Bool
  | [], [] => false
  | [], _ :: _ => true
  | _ :: _, [] => false
  | a :: as, b :: bs => if a < b then true else if b < a then false else strLtB as bs

/-- JavaScript string `<=`. -/
def strLeB (a b : List Char) : Bool :=
  !(strLtB b a)

/-- The proleptic-Gregorian leap-year rule used by JavaScript `Date`. -/
def isLeap (y : Nat) : Bool :=
  (y % 4 = 0 ∧ y % 100 ≠ 0) ∨ y % 400 = 0

def daysInYear (y : Nat) : Nat :=
  if isLeap y then 366 else 365

/-- Lengths of the years 1970–9999, the domain on which `toISOString`
prints a fixed-width four-digit year. -/
def yearLengths : List Nat :=
  (List.range 8030).map (fun k => daysInYear (1970 + k))

/-- Month lengths of a year. -/
def monthLengths (leap : Bool) : List Nat :=
  [31, if leap then 29 else 28, 31, 30, 31, 30, 31, 31, 30, 31, 30, 31]

/-- Walk a list of segment lengths, consuming `r`: returns the index of the
segment containing `r` (offset by the start index `i`) and the remainder
within it. -/
def carve : List Nat → Nat → Nat → Nat × Nat
  | [], i, r => (i, r)
  | n :: L, i, r => if r < n then (i, r) else carve L (i + 1) (r - n)

/-- The decimal digit character of `d % 10`. -/
def digitChar (d : Nat) : Char :=
  Char.ofNat (48 + d % 10)

/-- Two-digit zero-padded decimal print (for values below 100). -/
def pad2 (n : Nat) : List Char :=
  [digitChar (n / 10), digitChar n]

/-- Four-digit zero-padded decimal print (for values below 10000). -/
def pad4 (n : Nat) : List Char :=
  [digitChar (n / 1000), digitChar (n / 100), digitChar (n / 10), digitChar n]

/-- The `HH:MM:SS.000Z` part of `toISOString` for a second-of-day. -/
def timeOfDay (rem : Nat) : List Char :=
  pad2 (rem / 3600) ++ ':' :: pad2 (rem % 3600 / 60) ++ ':' :: pad2 (rem % 60) ++ ".000Z".data

/-- The `YYYY-MM-DD` part of `toISOString` for a day count since the epoch:
find the year by walking year lengths from 1970, then the month by walking
the month lengths of that year. -/
def dateOf (days : Nat) : List Char :=
  let yc := carve yearLengths 1970 days
  let mc := carve (monthLengths (isLeap yc.1)) 1 yc.2
  pad4 yc.1 ++ '-' :: pad2 mc.1 ++ '-' :: pad2 (mc.2 + 1)

/-- `new Date(m * 1000).toISOString()` for a whole number `m` of seconds
since the epoch (before the year 10000): the canonical fixed-width
`YYYY-MM-DDTHH:MM:SS.000Z` form. -/
def epochToIso (m : Nat) : List Char :=
  dateOf (m / 86400) ++ 'T' :: timeOfDay (m % 86400)

/-- The action selection of `syncPosts` (index.ts lines 121–151) for one
post: `existing` is the queried page map entry (absent, or present with an
optional `Modified` marker).  A present entry is skipped exactly when its
marker is truthy (non-empty) and the post's modification instant, converted
to an ISO string, is `<=` the marker (string comparison); otherwise it is
updated.  An absent entry is created. -/
def classifyPost (postModified : Nat) (existing : Option (Option (List Char))) :
    SyncAction :=
  match existing with
  | none => SyncAction.create
  | some marker =>
    match marker with
    | some mk =>
      if mk ≠ [] ∧ strLeB (epochToIso postModified) mk then SyncAction.skip
      else SyncAction.update
    | none => SyncAction.update

lemma memString_mem {k : String} : ∀ {l : List String}, memString k l = true → k ∈ l := by
  intro l
  induction l with
  | nil => simp [memString]
  | cons a rest ih =>
    simp only [memString]
    split
    · rename_i h
      intro
      subst h
      exact List.mem_cons_self _ _
    · intro h
      exact List.mem_cons_of_mem _ (ih h)

lemma assocLookup_mem {k v : String} :
    ∀ {l : List (String × String)}, assocLookup k l = some v → v ∈ l.map Prod.snd := by
  intro l
  induction l with
  | nil => simp [assocLookup]
  | cons p rest ih =>
    simp only [assocLookup]
    split
    · intro h
      simp only [Option.some.injEq] at h
      simp [h]
    · intro h
      simp [ih h]

/-- Every value of the alias table belongs to the supported set. -/
lemma languageMap_values_supported :
    ∀ v ∈ languageMap.map Prod.snd, v ∈ SUPPORTED_LANGUAGES := by decide

/-- Away from the two all-lower-case inherited `Object.prototype` keys, the
bracket read hits an own table entry or misses entirely, so `mapLanguage`
returns a string belonging to the supported set. -/
lemma mapLanguage_str_supported (t : String)
    (h1 : normalizeTag t ≠ "constructor") (h2 : normalizeTag t ≠ "__proto__") :
    ∃ s, mapLanguage t = JsVal.str s ∧ s ∈ SUPPORTED_LANGUAGES := by
  unfold mapLanguage
  simp only
  cases h : jsIndex (normalizeTag t) with
  | some v =>
    simp only [h]
    have hv : ∃ w, v = JsVal.str w ∧ w ∈ SUPPORTED_LANGUAGES := by
      unfold jsIndex at h
      cases ha : assocLookup (normalizeTag t) languageMap with
      | some w =>
        simp only [ha, Option.some.injEq] at h
        exact ⟨w, h.symm, languageMap_values_supported w (assocLookup_mem ha)⟩
      | none =>
        simp only [ha] at h
        rw [if_neg h1, if_neg h2] at h
        exact Option.noConfusion h
    rcases hv with ⟨w, rfl, hw⟩
    have hwne : (w == "") = false := by
      cases hb : w == ""
      · rfl
      · have hweq : w = "" := eq_of_beq hb
        subst hweq
        exact absurd hw (by decide)
    have htr : truthyVal (JsVal.str w) = true := by
      simp only [truthyVal, hwne, Bool.not_false]
    rw [if_pos htr]
    exact ⟨w, rfl, hw⟩
  | none =>
    simp only [h]
    by_cases hmem : memString (normalizeTag t) SUPPORTED_LANGUAGES = true
    · rw [if_pos hmem]
      exact ⟨normalizeTag t, rfl, memString_mem hmem⟩
    · rw [if_neg hmem]
      exact ⟨"plain text", rfl, by decide⟩

set_option maxRecDepth 8000 in
/-- Every member of the supported set is a (string) fixed point of
`mapLanguage`. -/
lemma supported_fixed : ∀ v ∈ SUPPORTED_LANGUAGES, mapLanguage v = JsVal.str v := by
  decide

/-- Claim C8 counterexample: the tags `"constructor"` and `"__proto__"`
reach the inherited `Object.prototype` members through the bracket read —
both truthy, so `mapLanguage` returns them as-is — and neither result is a
string at all, let alone a member of `SUPPORTED_LANGUAGES`; this refutes
the claim's universal membership part. -/
theorem c8_counterexample :
    mapLanguage "constructor" = JsVal.protoCtor ∧
    mapLanguage "__proto__" = JsVal.protoObj ∧
    (mapLanguage "constructor").isStr = false ∧
    (mapLanguage "__proto__").isStr = false := by decide

/-- Claim C8 (amended): unless the normalized tag is one of the two
all-lower-case inherited `Object.prototype` keys (`"constructor"`,
`"__proto__"`), the normalizer returns a string that is a member of the
supported set; the alias mapping `normalize("PY") = "python"` and the
default `normalize("unknownlang") = "plain text"` hold as claimed. -/
theorem c8_normalizes_amended (t : String)
    (h1 : normalizeTag t ≠ "constructor") (h2 : normalizeTag t ≠ "__proto__") :
    (∃ s, mapLanguage t = JsVal.str s ∧ s ∈ SUPPORTED_LANGUAGES) ∧
    mapLanguage "PY" = JsVal.str "python" ∧
    mapLanguage "unknownlang" = JsVal.str "plain text" :=
  ⟨mapLanguage_str_supported t h1 h2, by decide, by decide⟩

/-- Witness for claim C8 at the concrete tag `"PY"`. -/
theorem c8_witness :
    (normalizeTag "PY" ≠ "constructor" ∧ normalizeTag "PY" ≠ "__proto__") ∧
    ((∃ s, mapLanguage "PY" = JsVal.str s ∧ s ∈ SUPPORTED_LANGUAGES) ∧
     mapLanguage "PY" = JsVal.str "python" ∧
     mapLanguage "unknownlang" = JsVal.str "plain text") :=
  ⟨⟨by decide, by decide⟩, c8_normalizes_amended "PY" (by decide) (by decide)⟩

/-- Claim C10 counterexample: at the tags `"constructor"` and
`"__proto__"` the normalizer returns an inherited non-string value, and
re-applying it to that value throws a `TypeError` at
`lang.toLowerCase()` (modelled as `none`), so
`normalize(normalize(t)) = normalize(t)` fails there. -/
theorem c10_counterexample :
    mapLanguageVal (mapLanguage "constructor") = none ∧
    mapLanguageVal (mapLanguage "__proto__") = none := by decide

/-- Claim C10 (amended): unless the normalized tag is `"constructor"` or
`"__proto__"`, the normalizer's result is a supported string fixed point,
so the second application succeeds and returns the same value. -/
theorem c10_idempotent_amended (t : String)
    (h1 : normalizeTag t ≠ "constructor") (h2 : normalizeTag t ≠ "__proto__") :
    mapLanguageVal (mapLanguage t) = some (mapLanguage t) := by
  rcases mapLanguage_str_supported t h1 h2 with ⟨s, hs, hmem⟩
  rw [hs]
  simp only [mapLanguageVal]
  rw [supported_fixed s hmem]

/-- Witness for claim C10 at the concrete tag `"ts"`. -/
theorem c10_witness :
    (normalizeTag "ts" ≠ "constructor" ∧ normalizeTag "ts" ≠ "__proto__") ∧
    mapLanguageVal (mapLanguage "ts") = some (mapLanguage "ts") :=
  ⟨⟨by decide, by decide⟩, c10_idempotent_amended "ts" (by decide) (by decide)⟩

/-! ## Sanitizer lemmas and claim C3 -/

lemma dropWhile_shape (p : Char → Bool) (l : List Char) :
    l.dropWhile p = [] ∨ ∃ c cs, l.dropWhile p = c :: cs ∧ p c = false := by
  induction l with
  | nil => left; rfl
  | cons a l ih =>
    by_cases h : p a
    · simpa [List.dropWhile_cons, h] using ih
    · right
      exact ⟨a, l, by simp [List.dropWhile_cons, h], by simpa using h⟩

lemma dropWhile_append_singleton (p : Char → Bool) (c : Char) (h : p c = false)
    (l : List Char) : (l ++ [c]).dropWhile p = l.dropWhile p ++ [c] := by
  induction l with
  | nil => simp [List.dropWhile_cons, h]
  | cons a l ih =>
    by_cases ha : p a <;> simp [List.dropWhile_cons, ha, ih]

/-- A non-empty trim output starts and ends with a non-whitespace
character. -/
lemma jsTrim_shape (y : List Char) (h : jsTrim y ≠ []) :
    (∃ d m, jsTrim y = d :: m ∧ jsWs d = false) ∧
    (∃ c cs, (jsTrim y).reverse = c :: cs ∧ jsWs c = false) := by
  constructor
  · rcases dropWhile_shape jsWs y with hw | ⟨d, ds, hw, hd⟩
    · exfalso; apply h; simp [jsTrim, hw]
    · refine ⟨d, ((ds.reverse.dropWhile jsWs)).reverse, ?_, hd⟩
      simp only [jsTrim, hw]
      rw [show (d :: ds).reverse = ds.reverse ++ [d] by simp,
        dropWhile_append_singleton jsWs d hd]
      simp
  · rcases dropWhile_shape jsWs ((y.dropWhile jsWs).reverse) with hw | ⟨c, cs, hw, hc⟩
    · exfalso; apply h; simp [jsTrim, hw]
    · exact ⟨c, cs, by simp [jsTrim, hw], hc⟩

/-- A string that starts and ends with non-whitespace characters is a fixed
point of `jsTrim`. -/
lemma jsTrim_fix (s : List Char)
    (h1 : ∃ d m, s = d :: m ∧ jsWs d = false)
    (h2 : ∃ c cs, s.reverse = c :: cs ∧ jsWs c = false) : jsTrim s = s := by
  obtain ⟨d, m, rfl, hd⟩ := h1
  obtain ⟨c, cs, hrev, hc⟩ := h2
  unfold jsTrim
  rw [List.dropWhile_cons]
  simp only [hd, Bool.false_eq_true, if_false]
  rw [hrev, List.dropWhile_cons]
  simp only [hc, Bool.false_eq_true, if_false]
  rw [← hrev, List.reverse_reverse]

/-- Provenance of a successful `sanitizePipeline` run. -/
lemma sanitizePipeline_some {t s : List Char} (h : sanitizePipeline t = some s) :
    t ≠ [] ∧
    ((s = t ∧ schemeTest t = true ∧ urlParseOk t = true) ∨
     (s = httpsPrefix ++ t ∧ schemeTest t = false ∧ domainTest t = true ∧
      urlParseOk (httpsPrefix ++ t) = true)) := by
  unfold sanitizePipeline at h
  split at h
  · exact absurd h (by simp)
  · rename_i hguard
    constructor
    · intro ht
      exact hguard (Or.inl ht)
    · split at h
      · rename_i hscheme
        split at h
        · rename_i hok
          left
          exact ⟨by simpa using h.symm, hscheme, hok⟩
        · exact absurd h (by simp)
      · rename_i hscheme
        split at h
        · rename_i hdom
          split at h
          · rename_i hok
            right
            exact ⟨by simpa using h.symm, by simpa using hscheme, hdom, hok⟩
          · exact absurd h (by simp)
        · exact absurd h (by simp)

lemma isAsciiLetter_ne_hash_slash {c : Char} (h : isAsciiLetter c = true) :
    c ≠ '#' ∧ c ≠ '/' := by
  constructor <;> rintro rfl <;> simp [isAsciiLetter] at h

/-- A string passing the scheme test starts with an ASCII letter. -/
lemma schemeTest_head {s : List Char} (h : schemeTest s = true) :
    ∃ c rest, s = c :: rest ∧ isAsciiLetter c = true := by
  cases s with
  | nil => simp [schemeTest] at h
  | cons c rest =>
    simp only [schemeTest, Bool.and_eq_true] at h
    exact ⟨c, rest, rfl, h.left⟩

/-- `schemeTest` holds of `https://` followed by anything. -/
lemma schemeTest_httpsPrefix (t : List Char) :
    schemeTest (httpsPrefix ++ t) = true := by
  simp only [httpsPrefix]
  simp [schemeTest, List.dropWhile_cons, schemeChar, isAsciiLetter, isAsciiDigit]

/-- A successful sanitizer output is a fixed point of `jsTrim`. -/
lemma sanitize_output_trimmed {u s : List Char} (h : sanitizeUrl u = some s) :
    jsTrim s = s ∧ s ≠ [] := by
  unfold sanitizeUrl at h
  split at h
  · exact absurd h (by simp)
  · obtain ⟨hne, hcase⟩ := sanitizePipeline_some h
    obtain ⟨⟨d, m, hdm, hd⟩, ⟨c, cs, hrev, hc⟩⟩ :=
      jsTrim_shape (decodeEntities u) hne
    rcases hcase with ⟨rfl, -, -⟩ | ⟨rfl, -, -, -⟩
    · exact ⟨jsTrim_fix _ ⟨d, m, hdm, hd⟩ ⟨c, cs, hrev, hc⟩, hne⟩
    · refine ⟨jsTrim_fix _
        ⟨'h', "ttps://".data ++ jsTrim (decodeEntities u), ?_, by decide⟩
        ⟨c, cs ++ httpsPrefix.reverse, ?_, hc⟩, by simp [httpsPrefix]⟩
      · simp [httpsPrefix]
      · rw [List.reverse_append, hrev]
        simp

/-- Claim C3 counterexample: the sanitizer is not idempotent.  Decoding is
re-applied on the second pass, so an input whose single decoding still
contains an HTML entity produces an output that the sanitizer rewrites
again: `sanitize("mailto:a&amp;amp;b") = "mailto:a&amp;b"` but
`sanitize("mailto:a&amp;b") = "mailto:a&b"`. -/
theorem c3_counterexample :
    sanitizeUrl "mailto:a&amp;amp;b".data = some "mailto:a&amp;b".data ∧
    sanitizeUrl "mailto:a&amp;b".data = some "mailto:a&b".data ∧
    "mailto:a&amp;b".data ≠ "mailto:a&b".data := by
  refine ⟨by decide, by decide, by decide⟩

/-- Claim C3 (amended): the sanitizer is idempotent on every non-null output
that contains no further decodable HTML entity — if `sanitizeUrl u = some s`
and decoding is the identity on `s`, then `sanitizeUrl s = some s`.  (The
unamended claim fails only when the first output still contains one of the
five entities, as in the counterexample.) -/
theorem c3_sanitize_idempotent_amended (u s : List Char)
    (h : sanitizeUrl u = some s) (hdec : decodeEntities s = s) :
    sanitizeUrl s = some s := by
  obtain ⟨htrim, hne⟩ := sanitize_output_trimmed h
  unfold sanitizeUrl at h ⊢
  split at h
  · exact absurd h (by simp)
  · rw [if_neg (by rw [htrim]; simpa using hne), hdec, htrim]
    obtain ⟨hne', hcase⟩ := sanitizePipeline_some h
    unfold sanitizePipeline
    rcases hcase with ⟨rfl, hscheme, hok⟩ | ⟨rfl, hscheme, hdom, hok⟩
    · obtain ⟨c, rest, heq, hletter⟩ := schemeTest_head hscheme
      obtain ⟨hhash, hslash⟩ := isAsciiLetter_ne_hash_slash hletter
      rw [if_neg (by simp [heq, hhash, hslash]), if_pos hscheme, if_pos hok]
    · rw [if_neg (by simp [httpsPrefix]), if_pos (schemeTest_httpsPrefix _),
        if_pos hok]

/-- Witness for the amended claim C3 at the concrete input
`"example.com"`, whose sanitization prepends `https://`. -/
theorem c3_amended_witness :
    sanitizeUrl "https://example.com".data = some "https://example.com".data :=
  c3_sanitize_idempotent_amended "example.com".data "https://example.com".data
    (by decide) (by decide)

/-! ## Pagination protocol lemmas and claims C5, C6 -/

lemma deleteWalkAux_eq (β : Type) :
    ∀ (fuel : Nat) (l : List Nat), l.length ≤ fuel * 100 + 100 →
      deleteWalkAux β fuel l = l.map RemoteCall.delete := by
  intro fuel
  induction fuel with
  | zero =>
    intro l hl
    simp only [deleteWalkAux]
    rw [List.take_of_length_le (by omega)]
  | succ fuel ih =>
    intro l hl
    simp only [deleteWalkAux]
    by_cases h : l.length > 100
    · rw [if_pos h, ih (l.drop 100) (by simp only [List.length_drop]; omega),
        ← List.map_append, List.take_append_drop]
    · rw [if_neg h, List.take_of_length_le (by omega), List.append_nil]

lemma deleteWalk_eq (β : Type) (l : List Nat) :
    deleteWalk β l = l.map RemoteCall.delete :=
  deleteWalkAux_eq β l.length l (by omega)

lemma chunksAux_fuel {β : Type} (n : Nat) (hn : 0 < n) :
    ∀ (f1 f2 : Nat) (l : List β), l.length ≤ f1 → l.length ≤ f2 →
      chunksAux n f1 l = chunksAux n f2 l := by
  intro f1
  induction f1 with
  | zero =>
    intro f2 l h1 h2
    have hl : l = [] := List.length_eq_zero.mp (by omega)
    subst hl
    cases f2 <;> simp [chunksAux]
  | succ f ih =>
    intro f2 l h1 h2
    cases l with
    | nil => cases f2 <;> simp [chunksAux]
    | cons c cs =>
      cases f2 with
      | zero => simp at h2
      | succ f2 =>
        simp only [chunksAux, List.cons.injEq, true_and]
        exact ih f2 _ (by simp only [List.length_drop]; simp at h1 ⊢; omega)
          (by simp only [List.length_drop]; simp at h2 ⊢; omega)

lemma chunks_eq_cons {β : Type} (l : List β) (h : l ≠ []) :
    chunks 100 l = l.take 100 :: chunks 100 (l.drop 100) := by
  cases l with
  | nil => exact absurd rfl h
  | cons c cs =>
    show chunksAux 100 (c :: cs).length (c :: cs) = _
    rw [List.length_cons]
    simp only [chunksAux, List.cons.injEq, true_and]
    exact chunksAux_fuel 100 (by omega) cs.length ((c :: cs).drop 100).length _
      (by simp only [List.length_drop, List.length_cons]; omega)
      (by omega)

lemma chunksAux_flatten {β : Type} (n : Nat) (hn : 0 < n) :
    ∀ (fuel : Nat) (l : List β), l.length ≤ fuel → (chunksAux n fuel l).flatten = l := by
  intro fuel
  induction fuel with
  | zero =>
    intro l hl
    have : l = [] := List.length_eq_zero.mp (by omega)
    subst this
    simp [chunksAux]
  | succ fuel ih =>
    intro l hl
    cases l with
    | nil => simp [chunksAux]
    | cons c cs =>
      have hlen : ((c :: cs).drop n).length ≤ fuel := by
        simp only [List.length_drop, List.length_cons]
        simp only [List.length_cons] at hl
        omega
      simp only [chunksAux, List.flatten_cons]
      rw [ih _ hlen, List.take_append_drop]

lemma chunks_flatten {β : Type} (l : List β) : (chunks 100 l).flatten = l :=
  chunksAux_flatten 100 (by omega) l.length l (by omega)

lemma chunksAux_sizes {β : Type} (n : Nat) (hn : 0 < n) :
    ∀ (fuel : Nat) (l : List β), l.length ≤ fuel →
      ∀ c ∈ chunksAux n fuel l, c.length ≤ n := by
  intro fuel
  induction fuel with
  | zero =>
    intro l hl c hc
    have : l = [] := List.length_eq_zero.mp (by omega)
    subst this
    simp [chunksAux] at hc
  | succ fuel ih =>
    intro l hl c hc
    cases l with
    | nil => simp [chunksAux] at hc
    | cons a as =>
      simp only [chunksAux, List.mem_cons] at hc
      rcases hc with rfl | hc
      · simp only [List.length_take]
        omega
      · refine ih _ ?_ c hc
        simp only [List.length_drop, List.length_cons]
        simp only [List.length_cons] at hl
        omega

lemma chunks_sizes {β : Type} (l : List β) (c : List β) (hc : c ∈ chunks 100 l) :
    c.length ≤ 100 :=
  chunksAux_sizes 100 (by omega) l.length l (by omega) c hc

lemma applyCalls_append {β : Type} (A B : List (RemoteCall β)) (st : List (RemoteItem β)) :
    applyCalls (A ++ B) st = applyCalls B (applyCalls A st) :=
  List.foldl_append applyCall st A B

lemma applyCalls_deletes {β : Type} :
    ∀ (ids : List Nat) (st : List (RemoteItem β)),
      applyCalls (ids.map RemoteCall.delete) st =
        st.filter (fun it => match it with
          | RemoteItem.old i => !(ids.contains i)
          | RemoteItem.new _ => true) := by
  intro ids
  induction ids with
  | nil =>
    intro st
    simp only [List.map_nil, applyCalls, List.foldl_nil]
    rw [eq_comm, List.filter_eq_self]
    intro it hit
    cases it <;> simp
  | cons i ids ih =>
    intro st
    simp only [List.map_cons, applyCalls, List.foldl_cons]
    rw [show List.foldl applyCall (applyCall st (RemoteCall.delete i))
        (ids.map RemoteCall.delete) =
        applyCalls (ids.map RemoteCall.delete) (applyCall st (RemoteCall.delete i))
      from rfl, ih]
    simp only [applyCall, List.filter_filter]
    apply List.filter_congr
    intro it hit
    cases it with
    | old j =>
      by_cases hj : j = i <;>
        simp [hj, List.contains_cons, Bool.not_or, Bool.and_comm]
    | new b => simp

lemma applyCalls_appends {β : Type} :
    ∀ (cs : List (List β)) (st : List (RemoteItem β)),
      applyCalls (cs.map RemoteCall.append) st = st ++ cs.flatten.map RemoteItem.new := by
  intro cs
  induction cs with
  | nil => intro st; simp [applyCalls]
  | cons c cs ih =>
    intro st
    simp only [List.map_cons, applyCalls, List.foldl_cons] at ih ⊢
    rw [show applyCall st (RemoteCall.append c) = st ++ c.map RemoteItem.new from rfl,
      ih, List.flatten_cons, List.map_append, List.append_assoc]

lemma filter_old_self {β : Type} (ids : List Nat) :
    (ids.map (RemoteItem.old (β := β))).filter (fun it => match it with
      | RemoteItem.old i => !(ids.contains i)
      | RemoteItem.new _ => true) = [] := by
  rw [List.filter_eq_nil_iff]
  intro it hit
  rw [List.mem_map] at hit
  obtain ⟨i, hi, rfl⟩ := hit
  simp [hi]

/-- The generic correctness of the replace protocol: replaying the calls of
`replacePageCalls` against a remote page holding exactly the existing
children leaves exactly the new blocks, in order; the trace is the
individual deletes of every existing child followed by the appends of the
≤100-sized chunks whose concatenation is the new block list. -/
lemma replace_correct {β : Type} (existing : List Nat) (newBlocks : List β) :
    applyCalls (replacePageCalls existing newBlocks)
        (existing.map RemoteItem.old) = newBlocks.map RemoteItem.new ∧
    replacePageCalls existing newBlocks
      = existing.map RemoteCall.delete ++ (chunks 100 newBlocks).map RemoteCall.append ∧
    ((chunks 100 newBlocks).all (fun c => c.length ≤ 100)) = true ∧
    (chunks 100 newBlocks).flatten = newBlocks := by
  have htrace : replacePageCalls existing newBlocks
      = existing.map RemoteCall.delete ++ (chunks 100 newBlocks).map RemoteCall.append := by
    unfold replacePageCalls
    rw [deleteWalk_eq]
    by_cases h : newBlocks.length > 0
    · rw [if_pos h]
    · rw [if_neg h]
      have : newBlocks = [] := List.length_eq_zero.mp (by omega)
      subst this
      simp [chunks, chunksAux]
  refine ⟨?_, htrace, ?_, chunks_flatten newBlocks⟩
  · rw [htrace, applyCalls_append, applyCalls_deletes, filter_old_self,
      applyCalls_appends, chunks_flatten]
    simp
  · rw [List.all_eq_true]
    intro c hc
    simpa using chunks_sizes newBlocks c hc

/-- Claim C6: for a Document of exactly 250 blocks, `createPage` issues
exactly three write calls — the creation call carrying the first 100
blocks, then two append calls carrying the next 100 and the final 50 —
whose payloads concatenate to the original block list in order. -/
theorem c6_create_pagination (bs : List Block) (h : bs.length = 250) :
    createPageCalls bs =
      [RemoteCall.create (bs.take 100),
       RemoteCall.append ((bs.drop 100).take 100),
       RemoteCall.append ((bs.drop 100).drop 100)] ∧
    (bs.take 100).length = 100 ∧
    ((bs.drop 100).take 100).length = 100 ∧
    ((bs.drop 100).drop 100).length = 50 ∧
    bs.take 100 ++ ((bs.drop 100).take 100 ++ (bs.drop 100).drop 100) = bs := by
  have h1 : (bs.drop 100).length = 150 := by simp [h]
  have h2 : ((bs.drop 100).drop 100).length = 50 := by simp [h]
  refine ⟨?_, by simp [h], by simp [List.length_take, h1], h2,
    by rw [List.take_append_drop, List.take_append_drop]⟩
  unfold createPageCalls
  rw [if_pos (by omega)]
  rw [chunks_eq_cons _ (by intro he; rw [he] at h1; simp at h1)]
  rw [chunks_eq_cons _ (by intro he; rw [he] at h2; simp at h2)]
  have h3 : ((bs.drop 100).drop 100).drop 100 = [] := by
    rw [← List.length_eq_zero, List.length_drop, h2]
  have h4 : ((bs.drop 100).drop 100).take 100 = (bs.drop 100).drop 100 :=
    List.take_of_length_le (by omega)
  rw [h3, show chunks 100 ([] : List Block) = [] from rfl, h4]
  simp

/-! ## Tokenizer counting lemmas and claim C2 -/

lemma drop_takeWhile_length {α : Type} (p : α → Bool) :
    ∀ l : List α, l.drop (l.takeWhile p).length = l.dropWhile p := by
  intro l
  induction l with
  | nil => rfl
  | cons a l ih =>
    by_cases h : p a
    · simp only [List.takeWhile_cons, List.dropWhile_cons, h, if_true,
        List.length_cons, List.drop_succ_cons]
      exact ih
    · simp [List.takeWhile_cons, List.dropWhile_cons, h]

/-- A line whose first character is not whitespace does not trim to
nothing. -/
lemma jsTrim_cons_ne {c : Char} (r : List Char) (hc : jsWs c = false) :
    jsTrim (c :: r) ≠ [] := by
  unfold jsTrim
  rw [List.dropWhile_cons]
  simp only [hc, Bool.false_eq_true, if_false]
  intro h
  have h2 : ((c :: r).reverse).dropWhile jsWs = [] := by
    simpa using congrArg List.reverse h
  rw [show (c :: r).reverse = r.reverse ++ [c] by simp,
    dropWhile_append_singleton jsWs c hc] at h2
  simp at h2

lemma blank_not_prefix {line : List Char} (hb : isBlank line = true) {c : Char}
    {p : List Char} (hc : jsWs c = false) (hp : (c :: p).isPrefixOf line = true) :
    False := by
  rw [List.isPrefixOf_iff_prefix] at hp
  obtain ⟨t, ht⟩ := hp
  simp only [isBlank] at hb
  rw [← ht, List.cons_append] at hb
  exact jsTrim_cons_ne _ hc (by simpa using hb)

lemma takeWhile_cons_of_eq {α : Type} {p : α → Bool} {l : List α} {d : α}
    {ds : List α} (h : l.takeWhile p = d :: ds) :
    ∃ l', l = d :: l' ∧ p d = true := by
  cases l with
  | nil => simp at h
  | cons a l' =>
    rw [List.takeWhile_cons] at h
    by_cases ha : p a
    · rw [if_pos ha] at h
      obtain ⟨h1, -⟩ := List.cons.inj h
      subst h1
      exact ⟨l', rfl, ha⟩
    · simp [ha] at h

lemma digit_not_ws {c : Char} (h : isAsciiDigit c = true) : jsWs c = false := by
  by_contra hw
  simp only [Bool.not_eq_false, jsWs, decide_eq_true_eq] at hw
  rcases hw with h1 | h1 | h1 | h1 | h1 | h1 <;>
    (subst h1; exact absurd h (by decide))

/-- A blank line has no leading non-whitespace character. -/
lemma isBlank_cons_false {c : Char} (r : List Char) (hc : jsWs c = false) :
    isBlank (c :: r) = false := by
  simp only [isBlank, decide_eq_false_iff_not]
  exact jsTrim_cons_ne r hc

lemma blank_no_ordered {line : List Char} (hb : isBlank line = true) {n : Nat}
    (h : orderedMatch line = some n) : False := by
  unfold orderedMatch at h
  split at h
  · simp at h
  · rename_i d ds hd
    obtain ⟨l', hl, hdig⟩ := takeWhile_cons_of_eq hd
    subst hl
    rw [isBlank_cons_false l' (digit_not_ws hdig)] at hb
    simp at hb

lemma length_dropWhile_le {α : Type} (p : α → Bool) (l : List α) :
    (l.dropWhile p).length ≤ l.length := by
  induction l with
  | nil => simp
  | cons a l ih =>
    rw [List.dropWhile_cons]
    split
    · exact le_trans ih (by simp)
    · simp

/-- A blank line fails every marker-prefix guard. -/
lemma blank_prefix_neg {line : List Char} (hb : isBlank line = true)
    {ps : List Char} (hc : jsWs (ps.headD ' ') = false) (hne : ps ≠ []) :
    ¬ (ps.isPrefixOf line = true) := by
  intro hp
  obtain ⟨c, p, rfl⟩ : ∃ c p, ps = c :: p := by
    cases ps with
    | nil => exact absurd rfl hne
    | cons c p => exact ⟨c, p, rfl⟩
  simp only [List.headD_cons] at hc
  exact blank_not_prefix hb hc hp

/-- A blank line yields no block. -/
lemma lineBlock_blank {line : List Char} (hb : isBlank line = true) :
    lineBlock line = none := by
  have hjt : jsTrim line = [] := by simpa [isBlank] using hb
  have hor : orderedMatch line = none := by
    cases h : orderedMatch line with
    | none => rfl
    | some n => exact (blank_no_ordered hb h).elim
  have hdiv : ¬ (line = "---".data ∨ line = "***".data ∨ line = "___".data) := by
    rintro (rfl | rfl | rfl) <;> exact absurd hb (by decide)
  unfold lineBlock
  rw [if_neg (blank_prefix_neg hb (by decide) (by decide)),
    if_neg (blank_prefix_neg hb (by decide) (by decide)),
    if_neg (blank_prefix_neg hb (by decide) (by decide)),
    if_neg (blank_prefix_neg hb (by decide) (by decide)),
    if_neg (blank_prefix_neg hb (by decide) (by decide)),
    if_neg (blank_prefix_neg hb (by decide) (by decide)),
    if_neg (blank_prefix_neg hb (by decide) (by decide)),
    if_neg (by
      rintro (hp | hp) <;>
        exact blank_prefix_neg hb (by decide) (by decide) hp)]
  rw [hor, hjt, if_neg hdiv]
  rfl

set_option maxHeartbeats 3000000 in
/-- A line yielding no block is blank. -/
lemma lineBlock_none_blank {line : List Char} (h : lineBlock line = none) :
    isBlank line = true := by
  unfold lineBlock at h
  split at h
  · exact absurd h (Option.some_ne_none _)
  · split at h
    · exact absurd h (Option.some_ne_none _)
    · split at h
      · exact absurd h (Option.some_ne_none _)
      · split at h
        · exact absurd h (Option.some_ne_none _)
        · split at h
          · exact absurd h (Option.some_ne_none _)
          · split at h
            · exact absurd h (Option.some_ne_none _)
            · split at h
              · exact absurd h (Option.some_ne_none _)
              · split at h
                · exact absurd h (Option.some_ne_none _)
                · split at h
                  · exact absurd h (Option.some_ne_none _)
                  · split at h
                    · exact absurd h (Option.some_ne_none _)
                    · split at h
                      · exact absurd h (Option.some_ne_none _)
                      · split at h
                        · exact absurd h (Option.some_ne_none _)
                        · rename_i hne
                          simp only [ne_eq, Decidable.not_not] at hne
                          simpa [isBlank] using hne

/-- The block count of the tokenizer equals the spec's promised count, for
any fuel at least the number of lines (both functions run on the same
fuel). -/
lemma tokLines_length_eq :
    ∀ (fuel : Nat) (ls : List (List Char)), ls.length ≤ fuel →
      (tokLines fuel ls).length = specCountAux fuel ls := by
  intro fuel
  induction fuel with
  | zero =>
    intro ls h
    have : ls = [] := List.length_eq_zero.mp (by omega)
    subst this
    rfl
  | succ fuel ih =>
    intro ls hls
    cases ls with
    | nil => rfl
    | cons line rest =>
      have hrest : rest.length ≤ fuel := by
        simp only [List.length_cons] at hls; omega
      by_cases hf : isFence line = true
      · have hdroplen :
            (((rest.dropWhile (fun l => ¬ isFence l))).drop 1).length ≤ fuel := by
          have h1 := length_dropWhile_le (fun l => ¬ isFence l) rest
          simp only [List.length_drop]
          omega
        simp only [tokLines, specCountAux, hf, if_true, List.length_cons]
        rw [drop_takeWhile_length, ih _ hdroplen]
        omega
      · cases hlb : lineBlock line with
        | some b =>
          have hb : isBlank line = false := by
            by_contra hbb
            rw [Bool.not_eq_false] at hbb
            rw [lineBlock_blank hbb] at hlb
            exact absurd hlb (by simp)
          simp only [tokLines, specCountAux, if_neg hf, hlb, hb,
            Bool.false_eq_true, if_false, List.length_cons]
          rw [ih rest hrest]
          omega
        | none =>
          have hb : isBlank line = true := lineBlock_none_blank hlb
          simp only [tokLines, specCountAux, if_neg hf, hlb, hb, if_true]
          exact ih rest hrest

/-- Claim C2: for every input string the tokenizer returns (the Lean
function is total, modelling that the source never raises), and the number
of blocks equals the spec's count of non-blank, non-continuation source
lines, a fenced code region collapsing to exactly one block and blank
lines producing none. -/
theorem c2_tokenize_count (content : String) :
    (convertContentToBlocks content).length = specCount (splitNl content.data) :=
  tokLines_length_eq _ _ (by omega)

/-! ## Run non-emptiness lemmas and claim C9 -/

lemma lazyInner_some_ne (c1 c2 : Char) :
    ∀ (s acc t rest : List Char), lazyInner c1 c2 acc s = some (t, rest) → t ≠ [] := by
  intro s
  induction s with
  | nil => intro acc t rest h; simp [lazyInner] at h
  | cons a s ih =>
    intro acc t rest h
    simp only [lazyInner] at h
    split at h
    · rename_i hcond
      obtain ⟨hacc, -, -⟩ := hcond
      simp only [Option.some.injEq, Prod.mk.injEq] at h
      obtain ⟨h1, -⟩ := h
      subst h1
      rw [ne_eq, List.reverse_eq_nil_iff]
      exact hacc
    · split at h
      · exact absurd h (by simp)
      · exact ih _ _ _ h

lemma mDouble_some_ne {c : Char} {s t rest : List Char}
    (h : mDouble c s = some (t, rest)) : t ≠ [] := by
  unfold mDouble at h
  split at h
  · split at h
    · exact lazyInner_some_ne c c _ _ _ _ h
    · exact absurd h (by simp)
  · exact absurd h (by simp)

lemma mCode_some_ne {s t rest : List Char} (h : mCode s = some (t, rest)) :
    t ≠ [] := by
  unfold mCode at h
  split at h
  · split at h
    · exact absurd h (by simp)
    · split at h
      · simp only [Option.some.injEq, Prod.mk.injEq] at h
        obtain ⟨h1, -⟩ := h
        subst h1
        simp
      · exact absurd h (by simp)
  · exact absurd h (by simp)

lemma mStar_some_ne {prev : Option Char} {s t rest : List Char}
    (h : mStar prev s = some (t, rest)) : t ≠ [] := by
  unfold mStar at h
  split at h
  · split at h
    · exact absurd h (by simp)
    · split at h
      · exact absurd h (by simp)
      · split at h
        · split at h
          · exact absurd h (by simp)
          · simp only [Option.some.injEq, Prod.mk.injEq] at h
            obtain ⟨h1, -⟩ := h
            subst h1
            simp
        · exact absurd h (by simp)
  · exact absurd h (by simp)

lemma mUnder_some_ne {prev : Option Char} {s t rest : List Char}
    (h : mUnder prev s = some (t, rest)) : t ≠ [] := by
  unfold mUnder at h
  split at h
  · split at h
    · exact absurd h (by simp)
    · split at h
      · exact absurd h (by simp)
      · split at h
        · split at h
          · exact absurd h (by simp)
          · simp only [Option.some.injEq, Prod.mk.injEq] at h
            obtain ⟨h1, -⟩ := h
            subst h1
            simp
        · exact absurd h (by simp)
  · exact absurd h (by simp)

lemma mLink_url_ne {s label url rest : List Char}
    (h : mLink s = some ((label, url), rest)) : url ≠ [] := by
  unfold mLink at h
  simp only [] at h
  split at h
  · split at h
    · split at h
      · exact absurd h (by simp)
      · split at h
        · simp only [Option.some.injEq, Prod.mk.injEq] at h
          obtain ⟨⟨-, h2⟩, -⟩ := h
          subst h2
          simp
        · split at h
          · split at h
            · split at h
              · simp only [Option.some.injEq, Prod.mk.injEq] at h
                obtain ⟨⟨-, h2⟩, -⟩ := h
                subst h2
                simp
              · exact absurd h (by simp)
            · exact absurd h (by simp)
          · exact absurd h (by simp)
        · exact absurd h (by simp)
    · exact absurd h (by simp)
  · exact absurd h (by simp)

lemma mAutoWith_some_ne {pre rest u after : List Char} (hpre : pre ≠ [])
    (h : mAutoWith pre rest = some (u, after)) : u ≠ [] := by
  unfold mAutoWith at h
  simp only [] at h
  split at h
  · exact absurd h (by simp)
  · split at h
    · simp only [Option.some.injEq, Prod.mk.injEq] at h
      obtain ⟨h1, -⟩ := h
      subst h1
      simp [hpre]
    · exact absurd h (by simp)

lemma mAuto_some_ne {s u rest : List Char} (h : mAuto s = some (u, rest)) :
    u ≠ [] := by
  unfold mAuto at h
  split at h
  · split at h
    · exact mAutoWith_some_ne (by decide) h
    · split at h
      · exact mAutoWith_some_ne (by decide) h
      · exact absurd h (by simp)
  · exact absurd h (by simp)

lemma tokItems_content {prev : Option Char} {s : List Char} {tok : ITok}
    {c : Char} {rest : List Char} (h : tryITok prev s = some (tok, c, rest)) :
    ∀ (inh : Flags), ∀ it ∈ tokItems inh tok, it.content ≠ [] := by
  unfold tryITok at h
  split at h
  · rename_i t r heq
    simp only [Option.some.injEq, Prod.mk.injEq] at h
    obtain ⟨h1, -⟩ := h
    subst h1
    intro inh it hit
    simp only [tokItems, List.mem_singleton] at hit
    subst hit
    exact mCode_some_ne heq
  · split at h
    · rename_i t r heq
      simp only [Option.some.injEq, Prod.mk.injEq] at h
      obtain ⟨h1, -⟩ := h
      subst h1
      intro inh it hit
      simp only [tokItems, List.mem_singleton] at hit
      subst hit
      exact mDouble_some_ne heq
    · split at h
      · rename_i t r heq
        simp only [Option.some.injEq, Prod.mk.injEq] at h
        obtain ⟨h1, -⟩ := h
        subst h1
        intro inh it hit
        simp only [tokItems, List.mem_singleton] at hit
        subst hit
        exact mDouble_some_ne heq
      · split at h
        · rename_i t r heq
          simp only [Option.some.injEq, Prod.mk.injEq] at h
          obtain ⟨h1, -⟩ := h
          subst h1
          intro inh it hit
          simp only [tokItems, List.mem_singleton] at hit
          subst hit
          exact mStar_some_ne heq
        · split at h
          · rename_i t r heq
            simp only [Option.some.injEq, Prod.mk.injEq] at h
            obtain ⟨h1, -⟩ := h
            subst h1
            intro inh it hit
            simp only [tokItems, List.mem_singleton] at hit
            subst hit
            exact mUnder_some_ne heq
          · split at h
            · rename_i t r heq
              simp only [Option.some.injEq, Prod.mk.injEq] at h
              obtain ⟨h1, -⟩ := h
              subst h1
              intro inh it hit
              simp only [tokItems, List.mem_singleton] at hit
              subst hit
              exact mDouble_some_ne heq
            · exact absurd h (by simp)

lemma flushInline_content {inh : Flags} {pending : List Char} :
    ∀ it ∈ flushInline inh pending, it.content ≠ [] := by
  intro it hit
  unfold flushInline at hit
  split at hit
  · simp at hit
  · rename_i hp
    simp only [List.mem_singleton] at hit
    subst hit
    exact hp

lemma scanInline_content (inh : Flags) :
    ∀ (fuel : Nat) (prev : Option Char) (pending s : List Char),
      ∀ it ∈ scanInline inh fuel prev pending s, it.content ≠ [] := by
  intro fuel
  induction fuel with
  | zero =>
    intro prev pending s it hit
    cases s with
    | nil => exact flushInline_content it hit
    | cons c cs => exact flushInline_content it hit
  | succ fuel ih =>
    intro prev pending s it hit
    cases s with
    | nil => exact flushInline_content it hit
    | cons c cs =>
      simp only [scanInline] at hit
      cases htok : tryITok prev (c :: cs) with
      | some v =>
        obtain ⟨tok, lastc, after⟩ := v
        rw [htok] at hit
        simp only [List.mem_append] at hit
        rcases hit with (hit | hit) | hit
        · exact flushInline_content it hit
        · exact tokItems_content htok inh it hit
        · exact ih _ _ _ it hit
      | none =>
        rw [htok] at hit
        exact ih _ _ _ it hit

lemma parseInlineFormat_content {inh : Flags} {t : List Char} (ht : t ≠ []) :
    ∀ it ∈ parseInlineFormat inh t, it.content ≠ [] := by
  intro it hit
  unfold parseInlineFormat at hit
  simp only [] at hit
  split at hit
  · simp only [List.mem_singleton] at hit
    subst hit
    exact ht
  · exact scanInline_content inh _ _ _ _ it hit

lemma rtokRuns_content {prev : Option Char} {s : List Char} {tok : RTok}
    {c : Char} {rest : List Char} (h : tryRTok prev s = some (tok, c, rest)) :
    ∀ r ∈ rtokRuns tok, r.content ≠ [] := by
  unfold tryRTok at h
  split at h
  · rename_i t r' heq
    simp only [Option.some.injEq, Prod.mk.injEq] at h
    obtain ⟨h1, -⟩ := h
    subst h1
    intro r hr
    simp only [rtokRuns, List.mem_singleton] at hr
    subst hr
    exact mCode_some_ne heq
  · split at h
    · rename_i label url r' heq
      simp only [Option.some.injEq, Prod.mk.injEq] at h
      obtain ⟨h1, -⟩ := h
      subst h1
      intro r hr
      have hlt : (if label = [] then url else label) ≠ [] := by
        split
        · exact mLink_url_ne heq
        · assumption
      simp only [rtokRuns] at hr
      split at hr <;>
        (rw [List.mem_map] at hr
         obtain ⟨it, hit, rfl⟩ := hr
         exact parseInlineFormat_content hlt it hit)
    · split at h
      · rename_i u r' heq
        simp only [Option.some.injEq, Prod.mk.injEq] at h
        obtain ⟨h1, -⟩ := h
        subst h1
        intro r hr
        simp only [rtokRuns] at hr
        split at hr <;>
          (simp only [List.mem_singleton] at hr
           subst hr
           exact mAuto_some_ne heq)
      · split at h
        · rename_i t r' heq
          simp only [Option.some.injEq, Prod.mk.injEq] at h
          obtain ⟨h1, -⟩ := h
          subst h1
          intro r hr
          simp only [rtokRuns] at hr
          rw [List.mem_map] at hr
          obtain ⟨it, hit, rfl⟩ := hr
          exact parseInlineFormat_content (mDouble_some_ne heq) it hit
        · split at h
          · rename_i t r' heq
            simp only [Option.some.injEq, Prod.mk.injEq] at h
            obtain ⟨h1, -⟩ := h
            subst h1
            intro r hr
            simp only [rtokRuns] at hr
            rw [List.mem_map] at hr
            obtain ⟨it, hit, rfl⟩ := hr
            exact parseInlineFormat_content (mDouble_some_ne heq) it hit
          · split at h
            · rename_i t r' heq
              simp only [Option.some.injEq, Prod.mk.injEq] at h
              obtain ⟨h1, -⟩ := h
              subst h1
              intro r hr
              simp only [rtokRuns] at hr
              rw [List.mem_map] at hr
              obtain ⟨it, hit, rfl⟩ := hr
              exact parseInlineFormat_content (mStar_some_ne heq) it hit
            · split at h
              · rename_i t r' heq
                simp only [Option.some.injEq, Prod.mk.injEq] at h
                obtain ⟨h1, -⟩ := h
                subst h1
                intro r hr
                simp only [rtokRuns] at hr
                rw [List.mem_map] at hr
                obtain ⟨it, hit, rfl⟩ := hr
                exact parseInlineFormat_content (mUnder_some_ne heq) it hit
              · split at h
                · rename_i t r' heq
                  simp only [Option.some.injEq, Prod.mk.injEq] at h
                  obtain ⟨h1, -⟩ := h
                  subst h1
                  intro r hr
                  simp only [rtokRuns] at hr
                  rw [List.mem_map] at hr
                  obtain ⟨it, hit, rfl⟩ := hr
                  exact parseInlineFormat_content (mDouble_some_ne heq) it hit
                · exact absurd h (by simp)

lemma flushRich_content {pending : List Char} :
    ∀ r ∈ flushRich pending, r.content ≠ [] := by
  intro r hr
  unfold flushRich at hr
  split at hr
  · simp at hr
  · rename_i hp
    simp only [List.mem_singleton] at hr
    subst hr
    exact hp

lemma scanRich_content :
    ∀ (fuel : Nat) (prev : Option Char) (pending s : List Char),
      ∀ r ∈ scanRich fuel prev pending s, r.content ≠ [] := by
  intro fuel
  induction fuel with
  | zero =>
    intro prev pending s r hr
    cases s with
    | nil => exact flushRich_content r hr
    | cons c cs => exact flushRich_content r hr
  | succ fuel ih =>
    intro prev pending s r hr
    cases s with
    | nil => exact flushRich_content r hr
    | cons c cs =>
      simp only [scanRich] at hr
      cases htok : tryRTok prev (c :: cs) with
      | some v =>
        obtain ⟨tok, lastc, after⟩ := v
        rw [htok] at hr
        simp only [List.mem_append] at hr
        rcases hr with (hr | hr) | hr
        · exact flushRich_content r hr
        · exact rtokRuns_content htok r hr
        · exact ih _ _ _ r hr
      | none =>
        rw [htok] at hr
        exact ih _ _ _ r hr

/-- On non-empty input every run of the rich-text parser has non-empty
content. -/
lemma parseRichText_content {t : List Char} (ht : t ≠ []) :
    ∀ r ∈ parseRichText t, r.content ≠ [] := by
  intro r hr
  unfold parseRichText at hr
  simp only [] at hr
  split at hr
  · simp only [List.mem_singleton] at hr
    subst hr
    exact ht
  · exact scanRich_content _ _ _ _ r hr

/-- On empty input the rich-text parser returns exactly one empty plain
run. -/
lemma parseRichText_nil : parseRichText [] = [{ content := [] }] := rfl

set_option maxHeartbeats 3000000 in
/-- Every block a non-fence line produces carries either the inline parse
of some slice of the line, or no runs at all. -/
lemma lineBlock_runs {line : List Char} {b : Block} (h : lineBlock line = some b) :
    (∃ t, runsOf b = parseRichText t) ∨ runsOf b = [] := by
  unfold lineBlock at h
  split at h
  · exact Or.inl ⟨_, by cases h; rfl⟩
  · split at h
    · exact Or.inl ⟨_, by cases h; rfl⟩
    · split at h
      · exact Or.inl ⟨_, by cases h; rfl⟩
      · split at h
        · exact Or.inl ⟨_, by cases h; rfl⟩
        · split at h
          · exact Or.inl ⟨_, by cases h; rfl⟩
          · split at h
            · exact Or.inl ⟨_, by cases h; rfl⟩
            · split at h
              · exact Or.inl ⟨_, by cases h; rfl⟩
              · split at h
                · exact Or.inl ⟨_, by cases h; rfl⟩
                · split at h
                  · exact Or.inl ⟨_, by cases h; rfl⟩
                  · split at h
                    · exact Or.inr (by cases h; rfl)
                    · split at h
                      · exact Or.inr (by cases h; rfl)
                      · split at h
                        · exact Or.inl ⟨_, by cases h; rfl⟩
                        · exact absurd h (by simp)

lemma tokLines_runs :
    ∀ (fuel : Nat) (ls : List (List Char)) (b : Block), b ∈ tokLines fuel ls →
      (∃ t, runsOf b = parseRichText t) ∨ runsOf b = [] := by
  intro fuel
  induction fuel with
  | zero =>
    intro ls b hb
    cases ls with
    | nil => simp [tokLines] at hb
    | cons l ls => simp [tokLines] at hb
  | succ fuel ih =>
    intro ls b hb
    cases ls with
    | nil => simp [tokLines] at hb
    | cons line rest =>
      simp only [tokLines] at hb
      by_cases hf : isFence line = true
      · rw [if_pos hf] at hb
        rcases List.mem_cons.mp hb with rfl | hb
        · exact Or.inr rfl
        · exact ih _ b hb
      · rw [if_neg hf] at hb
        cases hlb : lineBlock line with
        | some b' =>
          rw [hlb] at hb
          rcases List.mem_cons.mp hb with rfl | hb
          · exact lineBlock_runs hlb
          · exact ih _ b hb
        | none =>
          rw [hlb] at hb
          exact ih _ b hb

/-- Claim C9 counterexample: the line `# ` (a heading marker with nothing
after it) is non-blank, so a heading block IS emitted, and its single text
run has empty content — contradicting "every text run within the block has
non-empty content". -/
theorem c9_counterexample :
    convertContentToBlocks "# " = [Block.heading1 [{ content := [] }]] := by
  decide

/-- Claim C9 (amended): in every emitted block, every text run has
non-empty content unless the block came from a line that is exactly a
heading/quote/list marker with empty remainder, in which case the block's
runs are exactly one empty unstyled run.  (Blank lines still produce no
block, which claim C2's theorem covers.) -/
theorem c9_runs_nonempty_amended (body : String) (b : Block)
    (hb : b ∈ convertContentToBlocks body) (r : Run) (hr : r ∈ runsOf b) :
    r.content ≠ [] ∨ runsOf b = [{ content := [] }] := by
  rcases tokLines_runs _ _ b hb with ⟨t, ht⟩ | hnil
  · cases t with
    | nil =>
      right
      rw [ht, parseRichText_nil]
    | cons c cs =>
      left
      exact parseRichText_content (by simp) r (ht ▸ hr)
  · rw [hnil] at hr
    simp at hr

/-- Witness for the amended claim C9 at the concrete one-paragraph body
`"a"`. -/
theorem c9_witness :
    ((⟨"a".data, false, false, false, false, none⟩ : Run).content ≠ [] ∨
      runsOf (Block.para [⟨"a".data, false, false, false, false, none⟩])
        = [{ content := [] }]) :=
  c9_runs_nonempty_amended "a" (Block.para [⟨"a".data, false, false, false, false, none⟩])
    (by decide) ⟨"a".data, false, false, false, false, none⟩ (by decide)

/-! ## Claims C1, C4 and C5 -/

/-- Claim C1: on the input line `**a *b* c**` the inline rich-text parser
returns exactly three runs, in order — `"a "` bold, `"b"` bold+italic,
`" c"` bold: the outer bold flag is unioned onto every run of the
recursively parsed inner span. -/
theorem c1_nested_bold_italic :
    parseRichText "**a *b* c**".data =
      [{ content := "a ".data, bold := true },
       { content := "b".data, bold := true, italic := true },
       { content := " c".data, bold := true }] := by
  decide

/-- Claim C4 counterexample: the input `[x](not a url)` is not recognized
as a link at all — the link pattern's target class `[^)\s]+` excludes
whitespace, so no alternative matches and the whole line is emitted as one
unstyled run whose content is the literal text, not `"x"`. -/
theorem c4_counterexample :
    parseRichText "[x](not a url)".data = [{ content := "[x](not a url)".data }] := by
  decide

/-- Claim C4 (amended): when a bracketed link matches the link syntax (its
target contains no whitespace) but the target fails sanitization — e.g.
`[x](#a)`, an anchor the sanitizer rejects — the parser emits the label as
a plain styled run with no `linkUrl`, never dropping the label.  A target
containing whitespace, as in the claim's `[x](not a url)`, is not matched
as a link; the entire text is preserved as one literal run (label still not
dropped). -/
theorem c4_link_fallback_amended :
    parseRichText "[x](#a)".data = [{ content := "x".data }] := by
  decide

/-- Claim C5: replacing a page's content first deletes every existing child
block — the paginated walk deletes each listed block individually — and
then appends the newly converted blocks in chunks of at most 100, in
order; replaying the calls against a remote page holding exactly the
existing children leaves exactly the new Document's blocks in order. -/
theorem c5_replace_protocol (existing : List Nat) (content : String) :
    applyCalls (replacePageContentCalls existing content)
        (existing.map RemoteItem.old)
      = (convertContentToBlocks content).map RemoteItem.new ∧
    replacePageContentCalls existing content
      = existing.map RemoteCall.delete ++
          (chunks 100 (convertContentToBlocks content)).map RemoteCall.append ∧
    ((chunks 100 (convertContentToBlocks content)).all
        (fun c => c.length ≤ 100)) = true ∧
    (chunks 100 (convertContentToBlocks content)).flatten
      = convertContentToBlocks content :=
  replace_correct existing (convertContentToBlocks content)

set_option maxRecDepth 40000 in
/-- Witness for claim C6 at a concrete 250-block Document. -/
theorem c6_witness :
    (List.replicate 250 Block.divider).length = 250 ∧
    (createPageCalls (List.replicate 250 Block.divider) =
      [RemoteCall.create ((List.replicate 250 Block.divider).take 100),
       RemoteCall.append (((List.replicate 250 Block.divider).drop 100).take 100),
       RemoteCall.append (((List.replicate 250 Block.divider).drop 100).drop 100)] ∧
    ((List.replicate 250 Block.divider).take 100).length = 100 ∧
    (((List.replicate 250 Block.divider).drop 100).take 100).length = 100 ∧
    (((List.replicate 250 Block.divider).drop 100).drop 100).length = 50 ∧
    (List.replicate 250 Block.divider).take 100 ++
      (((List.replicate 250 Block.divider).drop 100).take 100 ++
       ((List.replicate 250 Block.divider).drop 100).drop 100) =
      List.replicate 250 Block.divider) :=
  ⟨by decide, c6_create_pagination _ (by decide)⟩

/-! ## String order, digit and calendar lemmas, and claim C7 -/

lemma strLtB_irrefl : ∀ a : List Char, strLtB a a = false := by
  intro a
  induction a with
  | nil => rfl
  | cons c cs ih =>
    simp only [strLtB, if_neg (lt_irrefl c)]
    exact ih

lemma strLtB_asymm : ∀ a b : List Char, strLtB a b = true → strLtB b a = false := by
  intro a
  induction a with
  | nil =>
    intro b h
    cases b with
    | nil => simp [strLtB] at h
    | cons y ys => rfl
  | cons x xs ih =>
    intro b h
    cases b with
    | nil => simp [strLtB] at h
    | cons y ys =>
      simp only [strLtB] at h ⊢
      by_cases h1 : x < y
      · rw [if_neg (lt_asymm h1), if_pos h1]
      · rw [if_neg h1] at h
        by_cases h2 : y < x
        · rw [if_pos h2] at h
          exact absurd h (by simp)
        · rw [if_neg h2] at h
          rw [if_neg h2, if_neg h1]
          exact ih ys h

lemma strLtB_cons_same (c : Char) (a b : List Char) :
    strLtB (c :: a) (c :: b) = strLtB a b := by
  simp only [strLtB, if_neg (lt_irrefl c)]

lemma strLtB_append_same : ∀ (x a b : List Char),
    strLtB (x ++ a) (x ++ b) = strLtB a b := by
  intro x
  induction x with
  | nil => intro a b; rfl
  | cons c cs ih =>
    intro a b
    simp only [List.cons_append, strLtB_cons_same]
    exact ih a b

lemma strLtB_append_of_lt : ∀ (a b r r' : List Char), a.length = b.length →
    strLtB a b = true → strLtB (a ++ r) (b ++ r') = true := by
  intro a
  induction a with
  | nil =>
    intro b r r' hl h
    have : b = [] := List.length_eq_zero.mp (by simpa using hl.symm)
    subst this
    simp [strLtB] at h
  | cons x xs ih =>
    intro b r r' hl h
    cases b with
    | nil => simp at hl
    | cons y ys =>
      simp only [List.cons_append, strLtB] at h ⊢
      by_cases h1 : x < y
      · rw [if_pos h1]
      · rw [if_neg h1] at h ⊢
        by_cases h2 : y < x
        · rw [if_pos h2] at h
          exact absurd h (by simp)
        · rw [if_neg h2] at h ⊢
          exact ih ys r r' (by simpa using hl) h

lemma divModLt {x y k : Nat} (hxy : x < y) (hdiv : x / k = y / k) :
    x % k < y % k := by
  have h1 := Nat.div_add_mod x k
  have h2 := Nat.div_add_mod y k
  rw [hdiv] at h1
  omega

lemma dLt : ∀ d, d < 10 → ∀ e, e < 10 → d < e → digitChar d < digitChar e := by
  decide

lemma digitChar_mod (n : Nat) : digitChar n = digitChar (n % 10) := by
  unfold digitChar
  rw [Nat.mod_mod_of_dvd n dvd_rfl]

/-- Two-digit prints compare strictly when the numbers do and their
hundreds agree. -/
lemma pad2LtOfDivEq {a b : Nat} (hab : a < b) (hdiv : a / 100 = b / 100) :
    strLtB (pad2 a) (pad2 b) = true := by
  have h10 : a / 10 ≤ b / 10 := Nat.div_le_div_right hab.le
  rcases eq_or_lt_of_le h10 with heq | hlt
  · have hmod : a % 10 < b % 10 := divModLt hab heq
    have hc : digitChar a < digitChar b := by
      rw [digitChar_mod a, digitChar_mod b]
      exact dLt _ (Nat.mod_lt _ (by omega)) _ (Nat.mod_lt _ (by omega)) hmod
    simp only [pad2, strLtB, heq]
    rw [if_neg (lt_irrefl _), if_neg (lt_irrefl _), if_pos hc]
  · have hc : digitChar (a / 10) < digitChar (b / 10) := by
      rw [digitChar_mod (a / 10), digitChar_mod (b / 10)]
      refine dLt _ (Nat.mod_lt _ (by omega)) _ (Nat.mod_lt _ (by omega)) ?_
      refine divModLt hlt ?_
      rw [Nat.div_div_eq_div_mul, Nat.div_div_eq_div_mul]
      simpa using hdiv
    simp only [pad2, strLtB]
    rw [if_pos hc]

lemma pad2Lt {a b : Nat} (hab : a < b) (hb : b < 100) :
    strLtB (pad2 a) (pad2 b) = true :=
  pad2LtOfDivEq hab (by omega)

lemma pad4_eq (n : Nat) :
    pad4 n = digitChar (n / 1000) :: digitChar (n / 100) :: pad2 n := rfl

lemma pad4Lt {a b : Nat} (hab : a < b) (hb : b < 10000) :
    strLtB (pad4 a) (pad4 b) = true := by
  have ha : a < 10000 := lt_trans hab hb
  have h1000 : a / 1000 ≤ b / 1000 := Nat.div_le_div_right hab.le
  rcases eq_or_lt_of_le h1000 with heq3 | hlt3
  · have e1 : digitChar (a / 1000) = digitChar (b / 1000) := by rw [heq3]
    have h100 : a / 100 ≤ b / 100 := Nat.div_le_div_right hab.le
    rcases eq_or_lt_of_le h100 with heq2 | hlt2
    · have e2 : digitChar (a / 100) = digitChar (b / 100) := by rw [heq2]
      rw [pad4_eq, pad4_eq, e1, e2, strLtB_cons_same, strLtB_cons_same]
      exact pad2LtOfDivEq hab heq2
    · have hc : digitChar (a / 100) < digitChar (b / 100) := by
        rw [digitChar_mod (a / 100), digitChar_mod (b / 100)]
        refine dLt _ (Nat.mod_lt _ (by omega)) _ (Nat.mod_lt _ (by omega)) ?_
        refine divModLt hlt2 ?_
        rw [Nat.div_div_eq_div_mul, Nat.div_div_eq_div_mul]
        simpa using heq3
      rw [pad4_eq, pad4_eq, e1, strLtB_cons_same]
      simp only [strLtB]
      rw [if_pos hc]
  · have hc : digitChar (a / 1000) < digitChar (b / 1000) := by
      rw [digitChar_mod (a / 1000), digitChar_mod (b / 1000)]
      rw [Nat.mod_eq_of_lt (by omega), Nat.mod_eq_of_lt (by omega)]
      exact dLt _ (by omega) _ (by omega) hlt3
    rw [pad4_eq, pad4_eq]
    simp only [strLtB]
    rw [if_pos hc]

/-- The time-of-day string compares strictly when the second-of-day does. -/
lemma timeLt {r r' : Nat} (h : r < r') (hr' : r' < 86400) :
    strLtB (timeOfDay r) (timeOfDay r') = true := by
  have hh : r / 3600 ≤ r' / 3600 := Nat.div_le_div_right h.le
  rcases eq_or_lt_of_le hh with hheq | hhlt
  · have hm3 : r % 3600 < r' % 3600 := divModLt h hheq
    have hmi : r % 3600 / 60 ≤ r' % 3600 / 60 := Nat.div_le_div_right hm3.le
    unfold timeOfDay
    simp only [List.append_assoc, List.cons_append]
    rw [hheq, strLtB_append_same, strLtB_cons_same]
    rcases eq_or_lt_of_le hmi with hmieq | hmilt
    · have hs : r % 60 < r' % 60 := by
        have e1 : r % 60 = r % 3600 % 60 := (Nat.mod_mod_of_dvd r (by norm_num)).symm
        have e2 : r' % 60 = r' % 3600 % 60 := (Nat.mod_mod_of_dvd r' (by norm_num)).symm
        rw [e1, e2]
        exact divModLt hm3 hmieq
      rw [hmieq, strLtB_append_same, strLtB_cons_same]
      exact strLtB_append_of_lt _ _ _ _ rfl (pad2Lt hs (by omega))
    · exact strLtB_append_of_lt _ _ _ _ rfl (pad2Lt hmilt (by omega))
  · unfold timeOfDay
    simp only [List.append_assoc, List.cons_append]
    exact strLtB_append_of_lt _ _ _ _ rfl (pad2Lt hhlt (by omega))

/-- The characterization of `carve` on an in-range remainder: it stops in
segment `k` with the leftover past the first `k` segment lengths. -/
lemma carve_spec : ∀ (L : List Nat) (i r : Nat), r < L.sum →
    ∃ k, ∃ hk : k < L.length, carve L i r = (i + k, r - (L.take k).sum) ∧
      (L.take k).sum ≤ r ∧ r < (L.take k).sum + L.get ⟨k, hk⟩ := by
  intro L
  induction L with
  | nil => intro i r h; simp at h
  | cons n L ih =>
    intro i r h
    by_cases hr : r < n
    · refine ⟨0, by simp, ?_, by simp, by simpa⟩
      simp [carve, hr]
    · have hsum : r - n < L.sum := by
        simp only [List.sum_cons] at h
        omega
      obtain ⟨k, hk, hceq, hle, hlt⟩ := ih (i + 1) (r - n) hsum
      refine ⟨k + 1, by simpa using Nat.succ_lt_succ hk, ?_, ?_, ?_⟩
      · rw [show carve (n :: L) i r = carve L (i + 1) (r - n) by simp [carve, hr],
          hceq]
        simp only [List.take_succ_cons, List.sum_cons, Prod.mk.injEq]
        constructor
        · omega
        · omega
      · simp only [List.take_succ_cons, List.sum_cons]
        omega
      · simp only [List.take_succ_cons, List.sum_cons, List.get_cons_succ]
        omega

lemma carve_fst_ge : ∀ (L : List Nat) (i r : Nat), i ≤ (carve L i r).1 := by
  intro L
  induction L with
  | nil => intro i r; simp [carve]
  | cons n L ih =>
    intro i r
    by_cases hr : r < n
    · simp [carve, hr]
    · simp only [carve, if_neg hr]
      exact le_trans (by omega) (ih (i + 1) (r - n))

lemma carve_mono : ∀ (L : List Nat) (i r r' : Nat), r < r' → r' < L.sum →
    (carve L i r).1 < (carve L i r').1 ∨
    ((carve L i r).1 = (carve L i r').1 ∧ (carve L i r).2 < (carve L i r').2) := by
  intro L
  induction L with
  | nil => intro i r r' h hs; simp at hs
  | cons n L ih =>
    intro i r r' h hs
    by_cases h2 : r' < n
    · have h1 : r < n := lt_trans h h2
      right
      simp [carve, h1, h2, h]
    · by_cases h1 : r < n
      · left
        rw [show carve (n :: L) i r = (i, r) by simp [carve, h1],
          show carve (n :: L) i r' = carve L (i + 1) (r' - n) by simp [carve, h2]]
        exact lt_of_lt_of_le (by omega) (carve_fst_ge L (i + 1) (r' - n))
      · rw [show carve (n :: L) i r = carve L (i + 1) (r - n) by simp [carve, h1],
          show carve (n :: L) i r' = carve L (i + 1) (r' - n) by simp [carve, h2]]
        refine ih (i + 1) (r - n) (r' - n) (by omega) ?_
        simp only [List.sum_cons] at hs
        omega

lemma carve_fst_lt (L : List Nat) (i r : Nat) (h : r < L.sum) :
    (carve L i r).1 < i + L.length := by
  obtain ⟨k, hk, hceq, -, -⟩ := carve_spec L i r h
  rw [hceq]
  simpa using by omega

lemma carve_snd_lt_of_all (L : List Nat) (i r B : Nat) (h : r < L.sum)
    (hall : ∀ x ∈ L, x ≤ B) : (carve L i r).2 < B := by
  obtain ⟨k, hk, hceq, hle, hlt⟩ := carve_spec L i r h
  rw [hceq]
  have hmem : L.get ⟨k, hk⟩ ∈ L := L.get_mem k hk
  have := hall _ hmem
  simp only []
  omega

lemma yearLengths_length : yearLengths.length = 8030 := by
  simp [yearLengths]

lemma yearLengths_get (k : Nat) (hk : k < yearLengths.length) :
    yearLengths.get ⟨k, hk⟩ = daysInYear (1970 + k) := by
  simp only [yearLengths, List.get_eq_getElem, List.getElem_map, List.getElem_range]

lemma yearLengths_ge365 : ∀ x ∈ yearLengths, 365 ≤ x := by
  intro x hx
  simp only [yearLengths, List.mem_map, List.mem_range] at hx
  obtain ⟨k, -, rfl⟩ := hx
  unfold daysInYear
  split <;> omega

lemma sum_lower_of_ge365 : ∀ L : List Nat, (∀ x ∈ L, 365 ≤ x) →
    365 * L.length ≤ L.sum := by
  intro L
  induction L with
  | nil => simp
  | cons n L ih =>
    intro h
    have h1 := h n (List.mem_cons_self _ _)
    have h2 := ih (fun x hx => h x (List.mem_cons_of_mem _ hx))
    simp only [List.length_cons, List.sum_cons]
    omega

lemma yearLengths_sum_ge : 2930950 ≤ yearLengths.sum := by
  have := sum_lower_of_ge365 yearLengths yearLengths_ge365
  rw [yearLengths_length] at this
  omega

lemma take_sum_lower (L : List Nat) (k : Nat) (hall : ∀ x ∈ L, 365 ≤ x)
    (hk : k ≤ L.length) : 365 * k ≤ (L.take k).sum := by
  have h1 : ∀ x ∈ L.take k, 365 ≤ x := fun x hx => hall x (List.take_subset k L hx)
  have h2 := sum_lower_of_ge365 (L.take k) h1
  rw [List.length_take] at h2
  omega

/-- For a day count in the guaranteed range the carve year stays below
10000 (so the printed year is four digits wide). -/
lemma yearCarve_fst_lt (d : Nat) (hd : d < 2930950) :
    (carve yearLengths 1970 d).1 < 10000 := by
  obtain ⟨k, hk, hceq, hle, -⟩ :=
    carve_spec yearLengths 1970 d (lt_of_lt_of_le hd yearLengths_sum_ge)
  have h365 : 365 * k ≤ (yearLengths.take k).sum :=
    take_sum_lower yearLengths k yearLengths_ge365 (le_of_lt hk)
  rw [hceq]
  simp only []
  omega

lemma yearCarve_snd_lt (d : Nat) (h : d < yearLengths.sum) :
    (carve yearLengths 1970 d).2 < daysInYear ((carve yearLengths 1970 d).1) := by
  obtain ⟨k, hk, hceq, hle, hlt⟩ := carve_spec yearLengths 1970 d h
  rw [yearLengths_get k hk] at hlt
  rw [hceq]
  simp only []
  omega

lemma monthLengths_length (leap : Bool) : (monthLengths leap).length = 12 := by
  cases leap <;> rfl

lemma monthLengths_le31 (leap : Bool) : ∀ x ∈ monthLengths leap, x ≤ 31 := by
  cases leap <;> decide

lemma daysInYear_eq_monthsSum (y : Nat) :
    daysInYear y = (monthLengths (isLeap y)).sum := by
  unfold daysInYear
  by_cases h : isLeap y = true
  · rw [if_pos h, h]
    decide
  · rw [if_neg h, Bool.not_eq_true] at *
    rw [h]
    decide

lemma pad2_length (n : Nat) : (pad2 n).length = 2 := rfl

lemma pad4_length (n : Nat) : (pad4 n).length = 4 := rfl

/-- The date string (with arbitrary continuations) compares strictly when
the day count does, within the four-digit-year domain. -/
lemma dateOf_lt {d d' : Nat} (h : d < d') (hd' : d' < 2930950) (r r' : List Char) :
    strLtB (dateOf d ++ r) (dateOf d' ++ r') = true := by
  have hsum' : d' < yearLengths.sum := lt_of_lt_of_le hd' yearLengths_sum_ge
  have hy4' : (carve yearLengths 1970 d').1 < 10000 := yearCarve_fst_lt d' hd'
  unfold dateOf
  simp only [List.append_assoc, List.cons_append]
  rcases carve_mono yearLengths 1970 d d' h hsum' with hylt | ⟨hyeq, hdoylt⟩
  · exact strLtB_append_of_lt _ _ _ _ ((pad4_length _).trans (pad4_length _).symm)
      (pad4Lt hylt hy4')
  · rw [← hyeq, strLtB_append_same, strLtB_cons_same]
    have hdoy' : (carve yearLengths 1970 d').2 <
        (monthLengths (isLeap (carve yearLengths 1970 d).1)).sum := by
      rw [← daysInYear_eq_monthsSum, hyeq]
      exact yearCarve_snd_lt d' hsum'
    rcases carve_mono (monthLengths (isLeap (carve yearLengths 1970 d).1)) 1
        (carve yearLengths 1970 d).2 (carve yearLengths 1970 d').2 hdoylt hdoy'
      with hmlt | ⟨hmeq, hddlt⟩
    · refine strLtB_append_of_lt _ _ _ _
        ((pad2_length _).trans (pad2_length _).symm) (pad2Lt hmlt ?_)
      have hf := carve_fst_lt (monthLengths (isLeap (carve yearLengths 1970 d).1)) 1
        (carve yearLengths 1970 d').2 hdoy'
      rw [monthLengths_length] at hf
      omega
    · rw [← hmeq, strLtB_append_same, strLtB_cons_same]
      refine strLtB_append_of_lt _ _ _ _
        ((pad2_length _).trans (pad2_length _).symm) (pad2Lt (by omega) ?_)
      have hs := carve_snd_lt_of_all (monthLengths (isLeap (carve yearLengths 1970 d).1)) 1
        (carve yearLengths 1970 d').2 31 hdoy' (monthLengths_le31 _)
      omega

/-- The canonical ISO strings of two instants below the year-9992 bound
compare (as JavaScript strings) exactly as the instants do. -/
lemma epochToIso_lt {a b : Nat} (hab : a < b) (hb : b < 253234080000) :
    strLtB (epochToIso a) (epochToIso b) = true := by
  have hd : a / 86400 ≤ b / 86400 := Nat.div_le_div_right hab.le
  rcases eq_or_lt_of_le hd with hdeq | hdlt
  · unfold epochToIso
    rw [hdeq, strLtB_append_same, strLtB_cons_same]
    exact timeLt (divModLt hab hdeq) (Nat.mod_lt _ (by omega))
  · unfold epochToIso
    exact dateOf_lt hdlt (by omega) _ _

lemma epochToIso_ne_nil (m : Nat) : epochToIso m ≠ [] := by
  unfold epochToIso dateOf
  simp [pad4]

lemma classifyPost_self_skip (x : Nat) :
    classifyPost x (some (some (epochToIso x))) = SyncAction.skip := by
  have h1 : strLeB (epochToIso x) (epochToIso x) = true := by
    unfold strLeB
    rw [strLtB_irrefl]
    rfl
  simp only [classifyPost]
  rw [if_pos ⟨epochToIso_ne_nil x, h1⟩]

/-- Claim C7: for a post whose remote record carries a `Modified` marker —
written by this tool as the canonical ISO string of a source instant — the
per-post classification is UPDATE exactly when the post's modification
instant is strictly later than the marker's instant, and an exactly equal
timestamp is classified SKIP, not UPDATE.  (The instants are bounded below
the year 9992, where `toISOString` prints a fixed-width four-digit year and
lexicographic string comparison coincides with chronological order.) -/
theorem c7_staleness_classification (m mp : Nat) (hm : m < 253234080000)
    (hmp : mp < 253234080000) :
    (classifyPost m (some (some (epochToIso mp))) = SyncAction.update ↔ mp < m) ∧
    (m = mp → classifyPost m (some (some (epochToIso mp))) = SyncAction.skip) := by
  constructor
  · constructor
    · intro hupd
      by_contra hnot
      push_neg at hnot
      rcases eq_or_lt_of_le hnot with heq | hlt
      · rw [← heq, classifyPost_self_skip m] at hupd
        exact SyncAction.noConfusion hupd
      · have h1 : strLtB (epochToIso mp) (epochToIso m) = false :=
          strLtB_asymm _ _ (epochToIso_lt hlt hmp)
        have h2 : strLeB (epochToIso m) (epochToIso mp) = true := by
          unfold strLeB
          rw [h1]
          rfl
        simp only [classifyPost] at hupd
        rw [if_pos ⟨epochToIso_ne_nil mp, h2⟩] at hupd
        exact SyncAction.noConfusion hupd
    · intro hlt
      have h1 : strLtB (epochToIso mp) (epochToIso m) = true := epochToIso_lt hlt hm
      have h2 : strLeB (epochToIso m) (epochToIso mp) = false := by
        unfold strLeB
        rw [h1]
        rfl
      have hcond : ¬ (epochToIso mp ≠ [] ∧
          strLeB (epochToIso m) (epochToIso mp) = true) := by
        rintro ⟨-, hb⟩
        rw [h2] at hb
        exact Bool.noConfusion hb
      simp only [classifyPost]
      rw [if_neg hcond]
  · intro heq
    rw [← heq]
    exact classifyPost_self_skip m

/-- Witness for claim C7: one day after the epoch against an epoch marker
is classified UPDATE (the instant is strictly later), and the equal-stamp
branch is vacuously instantiated. -/
theorem c7_witness :
    86400 < 253234080000 ∧ 0 < 253234080000 ∧
      ((classifyPost 86400 (some (some (epochToIso 0))) = SyncAction.update ↔
          0 < 86400) ∧
       (86400 = 0 →
          classifyPost 86400 (some (some (epochToIso 0))) = SyncAction.skip)) :=
  ⟨by decide, by decide, c7_staleness_classification 86400 0 (by decide) (by decide)⟩

end SyncTypecho
